import Mathlib

/-!
# mini_compiler: a shallow embedding of `compiler.cpp`

The program reads one function definition of a tiny expression language,
tokenizes it (`Tokenizer`), parses it by recursive descent (`Parser`) and
prints a JavaScript function (`Generator`).

Conventions of the embedding.

* A C++ `string` is a `List Char`: one list element per C++ `char`, the element
  being the character with the same code.
* A member function that reads and writes an object's state takes the state
  and returns the new state next to its result.
* Every way a C++ call can fail to give a result is an `Err`:
  a thrown `runtime_error`, a thrown `out_of_range` (from `deque::at`), and
  behaviour the C++ standard leaves undefined (`front`/`pop_front` on an empty
  `deque`, control reaching the end of a non-void function).
* Loops and the mutual recursion of the parser run on a fuel counter; the entry
  points supply the fuel and `Err.out_of_fuel` marks a spent counter.
-/

namespace MiniCompiler

/-- A C++ `string`. -/
abbrev Str := List Char

/-- The ways a call can end without a result. -/
inductive Err where
  /-- A `throw runtime_error(buf)`: carries the two numbers printed into `buf`. -/
  | runtime_error (actual expected : Int)
  /-- The exception `std::out_of_range`, thrown by `deque::at`. -/
  | out_of_range
  /-- Undefined behaviour: the C++ standard defines no result. -/
  | undefined
  /-- The fuel counter of the embedding ran out. -/
  | out_of_fuel
  deriving DecidableEq

/-! ## Token -/

/-- The struct `Token { int type; string value; }`. -/
structure Token where
  type : Int
  value : Str
  deriving DecidableEq

/-- Enumerator `Token::Type::DEF` of
`enum Type {DEF, END, IDENTIFIER, INTEGER, OPAREN, CPAREN, COMMA}`. -/
abbrev Token.DEF : Int := 0
/-- Enumerator `Token::Type::END`. -/
abbrev Token.END : Int := 1
/-- Enumerator `Token::Type::IDENTIFIER`. -/
abbrev Token.IDENTIFIER : Int := 2
/-- Enumerator `Token::Type::INTEGER`. -/
abbrev Token.INTEGER : Int := 3
/-- Enumerator `Token::Type::OPAREN`. -/
abbrev Token.OPAREN : Int := 4
/-- Enumerator `Token::Type::CPAREN`. -/
abbrev Token.CPAREN : Int := 5
/-- Enumerator `Token::Type::COMMA`. -/
abbrev Token.COMMA : Int := 6

/-! ## Tokenizer

`re[N] = {"^(\\bdef\\b)", "^(\\bend\\b)", "^(\\b[a-zA-Z]+\\b)", "^(\\b[0-9]+\\b)",
"^\\(", "^\\)", ","}` are ECMAScript regular expressions, searched with
`regex_search`. The first six start with `^` and so match only at the start of
the string; the seventh has no `^` and matches a comma anywhere. -/

/-- The character class `[a-zA-Z]`. -/
def isLetter (c : Char) : Bool :=
  ('a' ≤ c && c ≤ 'z') || ('A' ≤ c && c ≤ 'Z')

/-- The character class `[0-9]`. -/
def isDigit (c : Char) : Bool :=
  '0' ≤ c && c ≤ '9'

/-- A word character of the regex engine (`\w`): a letter, a digit or `_`. -/
def isWordChar (c : Char) : Bool :=
  isLetter c || isDigit c || c == '_'

/-- Whether the character next to a position, if there is one, is a word
character. -/
def isWordAt : Option Char → Bool
  | none => false
  | some c => isWordChar c

/-- The assertion `\b` at a position with `left` before it and `right` after
it: exactly one of the two is a word character. -/
def wordBoundary (left right : Option Char) : Bool :=
  isWordAt left != isWordAt right

/-- Match of `^(\bkw\b)` for a literal keyword `kw`: the matched text. -/
def matchKeyword (kw code : Str) : Option Str :=
  if kw.isPrefixOf code && wordBoundary none code.head?
      && wordBoundary kw.getLast? (code.drop kw.length).head? then
    some kw
  else
    none

/-- The tail `[cls]*\b` of `[cls]+\b`, after a first character `left` of the
class has been taken: the number of further characters taken. The quantifier
is greedy and backtracks: it first tries to take one more character, and only
if the rest cannot match that way does it try `\b` at the current position. -/
def matchClassRest (cls : Char → Bool) (left : Char) : Str → Option Nat
  | [] => if wordBoundary (some left) none then some 0 else none
  | c :: cs =>
    match (if cls c then matchClassRest cls c cs else none) with
    | some n => some (n + 1)
    | none => if wordBoundary (some left) (some c) then some 0 else none

/-- Match of `^(\b[cls]+\b)`: the matched text. -/
def matchClass (cls : Char → Bool) : Str → Option Str
  | [] => none
  | c :: cs =>
    if wordBoundary none (some c) && cls c then
      (matchClassRest cls c cs).map (fun n => (c :: cs).take (n + 1))
    else
      none

/-- Match of `^\(` or `^\)`: the character `ch` at the start. -/
def matchAtStart (ch : Char) (code : Str) : Option Str :=
  if code.head? = some ch then some [ch] else none

/-- Match of `,`: a comma anywhere in the string; the matched text is `,`. -/
def matchAnywhere (ch : Char) (code : Str) : Option Str :=
  if ch ∈ code then some [ch] else none

/-- The number of rules, `static const int N = 7`. -/
def N : Nat := 7

/-- The call `regex_search(code, sm, regex(re[t]))` together with `sm.str(0)`:
`none` when the search finds nothing, the matched text otherwise. -/
def regex_search (code : Str) : Nat → Option Str
  | 0 => matchKeyword "def".toList code
  | 1 => matchKeyword "end".toList code
  | 2 => matchClass isLetter code
  | 3 => matchClass isDigit code
  | 4 => matchAtStart '(' code
  | 5 => matchAtStart ')' code
  | 6 => matchAnywhere ',' code
  | _ => none

/-- The function `void trim(string& str)`: erases the leading `' '` characters. -/
def trim (str : Str) : Str :=
  str.dropWhile (fun c => c == ' ')

/-- The `for (int t = 0; t < N; t++)` loop of `tokenize_one`, from index `t`,
with `fuel = N - t` iterations left. When the loop ends without a `return`,
control reaches the end of the function: undefined behaviour. -/
def tokenize_one_from (code : Str) : Nat → Nat → Except Err (Token × Str)
  | 0, _ => .error .undefined
  | fuel + 1, t =>
    match regex_search code t with
    | some result => .ok (⟨(t : Int), result⟩, trim (code.drop result.length))
    | none => tokenize_one_from code fuel (t + 1)

/-- The member `Token Tokenizer::tokenize_one()`: the token and the new `this->code`. -/
def tokenize_one (code : Str) : Except Err (Token × Str) :=
  tokenize_one_from code N 0

/-- The `while (this->code.length())` loop of `tokenize`. -/
def tokenize_loop : Nat → Str → List Token → Except Err (List Token)
  | 0, code, tokens => if code.length = 0 then .ok tokens else .error .out_of_fuel
  | fuel + 1, code, tokens =>
    if code.length = 0 then .ok tokens
    else
      match tokenize_one code with
      | .ok (token, code') => tokenize_loop fuel code' (tokens ++ [token])
      | .error e => .error e

/-- The member `deque<Token> Tokenizer::tokenize()` run on `this->code = code`. Every
iteration that returns erases at least one character, so `code.length`
iterations are enough. -/
def tokenize (code : Str) : Except Err (List Token) :=
  tokenize_loop code.length code []

/-- The constructor `Tokenizer::Tokenizer(string fname)`: `this->code` is the file's text with
every `'\n'` removed. -/
def Tokenizer (file_text : Str) : Str :=
  file_text.filter (fun c => c != '\n')

/-! ## Syntax tree -/

/-- The classes derived from `ExprNode`: `IntNode { string value }`,
`CallNode { string name; deque<ExprNode*> arg_exprs }` and
`VarNode { string name }`. -/
inductive ExprNode where
  | IntNode (value : Str)
  | CallNode (name : Str) (arg_exprs : List ExprNode)
  | VarNode (name : Str)

/-- The class `DefNode { string name; deque<string> args; ExprNode* body; }`. -/
structure DefNode where
  name : Str
  args : List Str
  body : ExprNode

/-! ## Parser

The state of a `Parser` is its `deque<Token> tokens`; every member function
returns the new deque next to its result. -/

/-- The member `bool Parser::peek(int type, int offset = 0)`: `tokens.at(offset)` throws
`out_of_range` when `offset`, converted to the unsigned index type, is not an
index of the deque. -/
def peek (tokens : List Token) (type : Int) (offset : Int) : Except Err Bool :=
  if offset < 0 then .error .out_of_range
  else
    match tokens.get? offset.toNat with
    | some token => .ok (token.type == type)
    | none => .error .out_of_range

/-- The member `string Parser::consume(int type)`: `front()` and `pop_front()` on an empty
deque are undefined behaviour. -/
def consume (tokens : List Token) (type : Int) : Except Err (Str × List Token) :=
  match tokens with
  | [] => .error .undefined
  | token :: rest =>
    if token.type = type then .ok (token.value, rest)
    else .error (.runtime_error token.type type)

/-- The statements `arg_names.push_back(this->tokens.front().value);
this->tokens.pop_front();` of `parse_arg_names`: no kind is checked, and on an
empty deque the behaviour is undefined. -/
def push_front_value (tokens : List Token) (arg_names : List Str) :
    Except Err (List Str × List Token) :=
  match tokens with
  | [] => .error .undefined
  | token :: rest => .ok (arg_names ++ [token.value], rest)

/-- The `while (peek(Token::Type::COMMA))` loop of `parse_arg_names`. -/
def parse_arg_names_loop : Nat → List Token → List Str → Except Err (List Str × List Token)
  | 0, _, _ => .error .out_of_fuel
  | fuel + 1, tokens, arg_names => do
    let more ← peek tokens Token.COMMA 0
    if more then
      let (_, tokens) ← consume tokens Token.COMMA
      let (arg_names, tokens) ← push_front_value tokens arg_names
      parse_arg_names_loop fuel tokens arg_names
    else
      pure (arg_names, tokens)

/-- The member `deque<string> Parser::parse_arg_names()`. Each iteration of the loop
removes two tokens, so `tokens.length + 1` iterations are enough. -/
def parse_arg_names (tokens : List Token) : Except Err (List Str × List Token) := do
  let (_, tokens) ← consume tokens Token.OPAREN
  let arg_names : List Str := []
  let first ← peek tokens Token.IDENTIFIER 0
  let (arg_names, tokens) ←
    if first then do
      let (arg_names, tokens) ← push_front_value tokens arg_names
      parse_arg_names_loop (tokens.length + 1) tokens arg_names
    else
      pure (arg_names, tokens)
  let (_, tokens) ← consume tokens Token.CPAREN
  pure (arg_names, tokens)

/-- The member `IntNode* Parser::parse_int()`. -/
def parse_int (tokens : List Token) : Except Err (ExprNode × List Token) := do
  let (i, tokens) ← consume tokens Token.INTEGER
  pure (.IntNode i, tokens)

/-- The member `VarNode* Parser::parse_var_ref()`. -/
def parse_var_ref (tokens : List Token) : Except Err (ExprNode × List Token) := do
  let (var, tokens) ← consume tokens Token.IDENTIFIER
  pure (.VarNode var, tokens)

/-- The condition `peek(Token::Type::IDENTIFIER) && peek(Token::Type::OPAREN, 1)`
of `parse_expr`: `&&` evaluates its right operand only when the left one is
true. -/
def peek_call (tokens : List Token) : Except Err Bool := do
  let ident ← peek tokens Token.IDENTIFIER 0
  if ident then peek tokens Token.OPAREN 1 else pure false

mutual
/-- The member `ExprNode* Parser::parse_expr()`. The functions of this block call one
another; every call takes one unit of `fuel`. -/
def parse_expr : Nat → List Token → Except Err (ExprNode × List Token)
  | 0, _ => .error .out_of_fuel
  | fuel + 1, tokens => do
    let int ← peek tokens Token.INTEGER 0
    if int then
      parse_int tokens
    else
      let call ← peek_call tokens
      if call then parse_call fuel tokens else parse_var_ref tokens

/-- The member `CallNode* Parser::parse_call()`. -/
def parse_call : Nat → List Token → Except Err (ExprNode × List Token)
  | 0, _ => .error .out_of_fuel
  | fuel + 1, tokens => do
    let (name, tokens) ← consume tokens Token.IDENTIFIER
    let (arg_exprs, tokens) ← parse_arg_exprs fuel tokens
    pure (.CallNode name arg_exprs, tokens)

/-- The member `deque<ExprNode*> Parser::parse_arg_exprs()`. -/
def parse_arg_exprs : Nat → List Token → Except Err (List ExprNode × List Token)
  | 0, _ => .error .out_of_fuel
  | fuel + 1, tokens => do
    let (_, tokens) ← consume tokens Token.OPAREN
    let arg_exprs : List ExprNode := []
    let closed ← peek tokens Token.CPAREN 0
    let (arg_exprs, tokens) ←
      if !closed then do
        let (x, tokens) ← parse_expr fuel tokens
        let arg_exprs := arg_exprs ++ [x]
        parse_arg_exprs_loop fuel tokens arg_exprs
      else
        pure (arg_exprs, tokens)
    let (_, tokens) ← consume tokens Token.CPAREN
    pure (arg_exprs, tokens)

/-- The `while (peek(Token::Type::COMMA))` loop of `parse_arg_exprs`. -/
def parse_arg_exprs_loop : Nat → List Token → List ExprNode →
    Except Err (List ExprNode × List Token)
  | 0, _, _ => .error .out_of_fuel
  | fuel + 1, tokens, arg_exprs => do
    let more ← peek tokens Token.COMMA 0
    if more then
      let (_, tokens) ← consume tokens Token.COMMA
      let (x, tokens) ← parse_expr fuel tokens
      parse_arg_exprs_loop fuel tokens (arg_exprs ++ [x])
    else
      pure (arg_exprs, tokens)
end

/-- The fuel `parse_def` gives to `parse_expr`: two units for every token left
and two more, which the expression parser never spends (`parse_fuel`). -/
def expr_fuel (tokens : List Token) : Nat :=
  2 * tokens.length + 2

/-- The member `DefNode* Parser::parse_def()`. -/
def parse_def (tokens : List Token) : Except Err (DefNode × List Token) := do
  let (_, tokens) ← consume tokens Token.DEF
  let (name, tokens) ← consume tokens Token.IDENTIFIER
  let (arg_names, tokens) ← parse_arg_names tokens
  let (body, tokens) ← parse_expr (expr_fuel tokens) tokens
  pure (⟨name, arg_names, body⟩, tokens)

/-- The member `DefNode* Parser::parse()` of a `Parser` constructed on `tokens`: the tree
and the tokens left in the deque. -/
def parse (tokens : List Token) : Except Err (DefNode × List Token) :=
  parse_def tokens

/-- The deque of a `Parser` after a call of `peek(type, offset)`, whether it
returned or threw: the body of `peek` reads `this->tokens` through `at` and
writes to nothing. -/
def peek_tokens_after (tokens : List Token) (_type _offset : Int) : List Token :=
  tokens

/-! ## Generator

`generate_helper` takes the front of a node's deque with `front()`, removes it
with `pop_front()` and iterates over what is left, so a call changes the tree
it walks. The functions below return the text together with the tree as the
call leaves it. -/

/-- What a `Node*` can point to: the concrete classes are `DefNode` and the
three `ExprNode` classes, whose `type()` are the four `case` labels of
`generate_helper`; no object reaches its `default:` label. -/
inductive Node where
  | def_node (node : DefNode)
  | expr_node (node : ExprNode)

mutual
/-- The cases `INTNODE`, `CALLNODE` and `VARNODE` of `generate_helper`. In the
`CALLNODE` case `front()` on an empty `arg_exprs` is undefined behaviour. -/
def generate_helper_expr : ExprNode → Except Err (Str × ExprNode)
  | .IntNode value => .ok (value, .IntNode value)
  | .CallNode _ [] => .error .undefined
  | .CallNode name (front :: popped) => do
    let (arg_exprs, _) ← generate_helper_expr front
    let (arg_exprs, popped) ← generate_helper_args popped arg_exprs
    pure (name ++ "(".toList ++ arg_exprs ++ ")".toList, .CallNode name popped)
  | .VarNode name => .ok (name, .VarNode name)

/-- The loop `for (it = arg_exprs.begin(); it != arg_exprs.end(); it++)
arg_exprs += ", " + generate_helper(*it)` of the `CALLNODE` case. -/
def generate_helper_args : List ExprNode → Str → Except Err (Str × List ExprNode)
  | [], arg_exprs => .ok (arg_exprs, [])
  | it :: rest, arg_exprs => do
    let (text, it) ← generate_helper_expr it
    let (arg_exprs, rest) ← generate_helper_args rest (arg_exprs ++ (", ".toList ++ text))
    pure (arg_exprs, it :: rest)
end

/-- The loop `for (it = args.begin(); it != args.end(); it++) args += ", " + *it`
of the `DEFNODE` case. -/
def generate_helper_names : List Str → Str → Str
  | [], args => args
  | it :: rest, args => generate_helper_names rest (args ++ (", ".toList ++ it))

/-- The member `string Generator::generate_helper(Node* node)`: the text and the node as
the call leaves it. In the `DEFNODE` case `front()` on an empty `args` is
undefined behaviour. -/
def generate_helper : Node → Except Err (Str × Node)
  | .def_node ⟨_, [], _⟩ => .error .undefined
  | .def_node ⟨name, front :: popped, body⟩ => do
    let args := generate_helper_names popped front
    let (text, body) ← generate_helper_expr body
    pure ("function ".toList ++ name ++ "(".toList ++ args ++ ") \x7breturn ".toList ++ text
      ++ "\x7d;".toList, .def_node ⟨name, popped, body⟩)
  | .expr_node node => do
    let (text, node) ← generate_helper_expr node
    pure (text, .expr_node node)

/-- The member `string Generator::generate()` of a `Generator` whose `tree` points to
`tree`: the text and the tree afterwards. -/
def generate (tree : Node) : Except Err (Str × Node) :=
  generate_helper tree

/-- The three stages as `main` chains them, from the text of the input file to
the generated text. -/
def compile (file_text : Str) : Except Err Str := do
  let tokens ← tokenize (Tokenizer file_text)
  let (tree, _) ← parse tokens
  let (generated, _) ← generate (.def_node tree)
  pure generated

/-! ## Reference rendering

The rendering rules as the specification words them, to compare
`generate_helper` with. -/

mutual
/-- Rendering rules of the specification: an integer literal is its stored
text, a variable reference is its name, and a call is the callee followed by
its arguments, rendered recursively, joined by `", "` and wrapped in
parentheses. -/
def render : ExprNode → Str
  | .IntNode value => value
  | .CallNode callee arguments =>
    callee ++ "(".toList ++ ", ".toList.intercalate (render_each arguments) ++ ")".toList
  | .VarNode name => name

/-- The renderings of a sequence of expressions, in order. -/
def render_each : List ExprNode → List Str
  | [] => []
  | e :: es => render e :: render_each es
end

/-- The definition rule of the specification: `function`, the name, the
parameters joined by `", "` in parentheses, and one `return` of the rendered
body. -/
def render_def (d : DefNode) : Str :=
  "function ".toList ++ d.name ++ "(".toList ++ ", ".toList.intercalate d.args
    ++ ") \x7breturn ".toList ++ render d.body ++ "\x7d;".toList

mutual
/-- Every call in the expression has at least one argument. -/
def calls_have_arguments : ExprNode → Bool
  | .IntNode _ => true
  | .CallNode _ [] => false
  | .CallNode _ (e :: es) => calls_have_arguments e && all_have_arguments es
  | .VarNode _ => true

/-- Every call in every expression of the sequence has at least one argument. -/
def all_have_arguments : List ExprNode → Bool
  | [] => true
  | e :: es => calls_have_arguments e && all_have_arguments es
end

mutual
/-- The expression as a call of `generate_helper` leaves it: every call that
was rendered has lost its first argument. -/
def popped : ExprNode → ExprNode
  | .IntNode value => .IntNode value
  | .CallNode name [] => .CallNode name []
  | .CallNode name (_ :: es) => .CallNode name (popped_each es)
  | .VarNode name => .VarNode name

/-- The sequence of expressions, each as a call of `generate_helper` leaves it. -/
def popped_each : List ExprNode → List ExprNode
  | [] => []
  | e :: es => popped e :: popped_each es
end

/-! ## Token texts

The texts that the specification gives to the tokens of each kind, to compare
the tokens of `tokenize` with. -/

/-- The text of the token is one that the specification allows for its kind:
`def` for `DEF`, `end` for `END`, a non-empty word of letters other than `def`
and `end` for `IDENTIFIER`, a non-empty word of digits for `INTEGER`, and `(`,
`)`, `,` for `OPAREN`, `CPAREN`, `COMMA`. -/
def token_text_ok (token : Token) : Bool :=
  if token.type = Token.DEF then token.value == "def".toList
  else if token.type = Token.END then token.value == "end".toList
  else if token.type = Token.IDENTIFIER then
    !token.value.isEmpty && token.value.all isLetter
      && token.value != "def".toList && token.value != "end".toList
  else if token.type = Token.INTEGER then !token.value.isEmpty && token.value.all isDigit
  else if token.type = Token.OPAREN then token.value == "(".toList
  else if token.type = Token.CPAREN then token.value == ")".toList
  else if token.type = Token.COMMA then token.value == ",".toList
  else false

/-- The text has a letter and a digit. -/
def mixes_letters_and_digits (text : Str) : Bool :=
  text.any isLetter && text.any isDigit

/-- The texts of a non-empty sequence of tokens written in order: `first`, then
each `(gap, token)` of `more` as `gap + 1` spaces followed by the text of
`token`. -/
def written (first : Token) : List (Nat × Token) → Str
  | [] => first.value
  | (gap, next) :: more => first.value ++ (List.replicate (gap + 1) ' ' ++ written next more)

/-! ## Token streams with a list that is not closed

The grammar of the specification, on token kinds:
`expression := INTEGER | IDENTIFIER "(" args? ")" | IDENTIFIER`,
`args := expression ("," expression)*`, `params := IDENTIFIER ("," IDENTIFIER)*`,
and the streams in which the list behind an `OPAREN` is not closed. -/

/-- The failures that are thrown exceptions: the `runtime_error` of `consume`
and the `out_of_range` of `deque::at` in `peek`. Undefined behaviour is none. -/
def is_thrown : Err → Bool
  | .runtime_error _ _ => true
  | .out_of_range => true
  | .undefined => false
  | .out_of_fuel => false

/-- The tokens of one `expression` (`Phrase false`) and of `args`, one or more
expressions separated by `COMMA` tokens (`Phrase true`). The second index
tells whether the last expression is a lone `IDENTIFIER`, a variable
reference. -/
inductive Phrase : Bool → Bool → List Token → Prop
  | integer (t : Token) : t.type = Token.INTEGER → Phrase false false [t]
  | identifier (t : Token) : t.type = Token.IDENTIFIER → Phrase false true [t]
  | call_empty (t o c : Token) : t.type = Token.IDENTIFIER → o.type = Token.OPAREN →
      c.type = Token.CPAREN → Phrase false false [t, o, c]
  | call (t o c : Token) (args : List Token) (v : Bool) : t.type = Token.IDENTIFIER →
      o.type = Token.OPAREN → c.type = Token.CPAREN → Phrase true v args →
      Phrase false false (t :: o :: (args ++ [c]))
  | one (ts : List Token) (v : Bool) : Phrase false v ts → Phrase true v ts
  | more (ts : List Token) (comma : Token) (rest : List Token) (v w : Bool) :
      Phrase false v ts → comma.type = Token.COMMA → Phrase true w rest →
      Phrase true w (ts ++ comma :: rest)

/-- The tokens of `params`: one or more `IDENTIFIER` tokens separated by
`COMMA` tokens. -/
inductive Params : List Token → Prop
  | one (p : Token) : p.type = Token.IDENTIFIER → Params [p]
  | more (p comma : Token) (rest : List Token) : p.type = Token.IDENTIFIER →
      comma.type = Token.COMMA → Params rest → Params (p :: comma :: rest)

/-- What follows the items of a list that is not closed: the stream ends, or the
next token is neither a `COMMA` nor a `CPAREN`. Behind a variable reference the
next token is no `OPAREN` either, which would make the item a call. -/
def not_closed (after_variable : Bool) : List Token → Prop
  | [] => True
  | t :: _ => t.type ≠ Token.COMMA ∧ t.type ≠ Token.CPAREN
      ∧ (after_variable = true → t.type ≠ Token.OPAREN)

/-- What follows the `OPAREN` of a list without items that is not closed: the
stream ends, or the next token is neither a `COMMA` nor a `CPAREN` and starts
no item: its kind is none of `item_starts`. -/
def not_closed_empty (item_starts : List Int) : List Token → Prop
  | [] => True
  | t :: _ => t.type ≠ Token.COMMA ∧ t.type ≠ Token.CPAREN ∧ t.type ∉ item_starts

/-- The tokens from the start of a call whose argument list, or the argument
list of a call in its last argument read, is not closed. -/
inductive Unclosed : List Token → Prop
  | empty_list (t o : Token) (rest : List Token) : t.type = Token.IDENTIFIER →
      o.type = Token.OPAREN → not_closed_empty [Token.INTEGER, Token.IDENTIFIER] rest →
      Unclosed (t :: o :: rest)
  | list (t o : Token) (items rest : List Token) (v : Bool) : t.type = Token.IDENTIFIER →
      o.type = Token.OPAREN → Phrase true v items → not_closed v rest →
      Unclosed (t :: o :: (items ++ rest))
  | first (t o : Token) (inner : List Token) : t.type = Token.IDENTIFIER →
      o.type = Token.OPAREN → Unclosed inner → Unclosed (t :: o :: inner)
  | later (t o : Token) (items : List Token) (v : Bool) (comma : Token) (inner : List Token) :
      t.type = Token.IDENTIFIER → o.type = Token.OPAREN → Phrase true v items →
      comma.type = Token.COMMA → Unclosed inner →
      Unclosed (t :: o :: (items ++ comma :: inner))

/-- The token streams of a definition whose parameter list is not closed, or
whose parameter list is closed and whose body has a call with an argument list
that is not closed. -/
inductive UnclosedDefinition : List Token → Prop
  | no_parameters (d n o : Token) (rest : List Token) : d.type = Token.DEF →
      n.type = Token.IDENTIFIER → o.type = Token.OPAREN →
      not_closed_empty [Token.IDENTIFIER] rest → UnclosedDefinition (d :: n :: o :: rest)
  | parameters (d n o : Token) (params rest : List Token) : d.type = Token.DEF →
      n.type = Token.IDENTIFIER → o.type = Token.OPAREN → Params params →
      not_closed false rest → UnclosedDefinition (d :: n :: o :: (params ++ rest))
  | body_no_parameters (d n o c : Token) (body : List Token) : d.type = Token.DEF →
      n.type = Token.IDENTIFIER → o.type = Token.OPAREN → c.type = Token.CPAREN →
      Unclosed body → UnclosedDefinition (d :: n :: o :: c :: body)
  | body (d n o c : Token) (params body : List Token) : d.type = Token.DEF →
      n.type = Token.IDENTIFIER → o.type = Token.OPAREN → Params params →
      c.type = Token.CPAREN → Unclosed body →
      UnclosedDefinition (d :: n :: o :: (params ++ c :: body))

/-! ## Facts about the lexical rules -/

theorem def_chars : "def".toList = ['d', 'e', 'f'] := rfl

theorem end_chars : "end".toList = ['e', 'n', 'd'] := rfl

theorem isWordChar_of_isLetter {c : Char} (h : isLetter c = true) : isWordChar c = true := by
  simp [isWordChar, h]

theorem isWordChar_of_isDigit {c : Char} (h : isDigit c = true) : isWordChar c = true := by
  simp [isWordChar, h]

/-- On a run of characters of a class of word characters that reaches the end
of the string, `[cls]*\b` takes the whole run. -/
theorem matchClassRest_all (cls : Char → Bool) (hcls : ∀ c, cls c = true → isWordChar c = true)
    (cs : Str) (left : Char) (hleft : cls left = true) (hcs : ∀ c ∈ cs, cls c = true) :
    matchClassRest cls left cs = some cs.length := by
  induction cs generalizing left with
  | nil => simp [matchClassRest, wordBoundary, isWordAt, hcls left hleft]
  | cons c cs ih =>
    have hc : cls c = true := hcs c (List.mem_cons_self _ _)
    have := ih c hc (fun d hd => hcs d (List.mem_cons_of_mem _ hd))
    simp [matchClassRest, hc, this]

theorem matchClass_all (cls : Char → Bool) (hcls : ∀ c, cls c = true → isWordChar c = true)
    (w : Str) (hne : w ≠ []) (hw : ∀ c ∈ w, cls c = true) :
    matchClass cls w = some w := by
  cases w with
  | nil => exact absurd rfl hne
  | cons c cs =>
    have hc : cls c = true := hw c (List.mem_cons_self _ _)
    have h := matchClassRest_all cls hcls cs c hc (fun d hd => hw d (List.mem_cons_of_mem _ hd))
    simp [matchClass, wordBoundary, isWordAt, hcls c hc, hc, h]

/-- On a word of letters, a keyword rule matches exactly the keyword itself. -/
theorem matchKeyword_letters (k1 k2 k3 : Char) (hk1 : isWordChar k1 = true)
    (hk3 : isWordChar k3 = true) (w : Str) (hw : ∀ c ∈ w, isLetter c = true) :
    matchKeyword [k1, k2, k3] w = if w = [k1, k2, k3] then some [k1, k2, k3] else none := by
  rcases w with _ | ⟨a, _ | ⟨b, _ | ⟨c, _ | ⟨d, rest⟩⟩⟩⟩
  · simp [matchKeyword, List.isPrefixOf]
  · simp [matchKeyword, List.isPrefixOf]
  · simp [matchKeyword, List.isPrefixOf]
  · by_cases h : a = k1 ∧ b = k2 ∧ c = k3
    · obtain ⟨rfl, rfl, rfl⟩ := h
      simp [matchKeyword, List.isPrefixOf, wordBoundary, isWordAt, hk1, hk3]
    · have : ¬ ([a, b, c] = [k1, k2, k3]) := by simpa using h
      simp only [this, if_false]
      simp [matchKeyword, List.isPrefixOf]
      intro h1 h2 h3
      exact absurd ⟨h1.symm, h2.symm, h3.symm⟩ h
  · have hd : isWordChar d = true := isWordChar_of_isLetter (hw d (by simp))
    simp [matchKeyword, List.isPrefixOf, wordBoundary, isWordAt, hk1, hk3, hd]

/-- The tokenizer on a word of letters that is not a keyword: the identifier
rule, third in the list, is the first that matches, and it takes the whole
word. -/
theorem tokenize_one_identifier (w : Str) (hne : w ≠ []) (hw : ∀ c ∈ w, isLetter c = true)
    (hdef : w ≠ "def".toList) (hend : w ≠ "end".toList) :
    tokenize_one w = .ok (⟨Token.IDENTIFIER, w⟩, []) := by
  have h0 : regex_search w 0 = none := by
    rw [def_chars] at hdef
    simp [regex_search, def_chars,
      matchKeyword_letters 'd' 'e' 'f' (by decide) (by decide) w hw, hdef]
  have h1 : regex_search w 1 = none := by
    rw [end_chars] at hend
    simp [regex_search, end_chars,
      matchKeyword_letters 'e' 'n' 'd' (by decide) (by decide) w hw, hend]
  have h2 : regex_search w 2 = some w := by
    simp [regex_search, matchClass_all isLetter (fun c => isWordChar_of_isLetter) w hne hw]
  simp [tokenize_one, N, tokenize_one_from, h0, h1, h2, trim]

/-- One iteration of `tokenize` that empties the code ends the loop. -/
theorem tokenize_single (w : Str) (token : Token) (hne : w ≠ [])
    (h : tokenize_one w = .ok (token, [])) : tokenize w = .ok [token] := by
  cases w with
  | nil => exact absurd rfl hne
  | cons c cs =>
    simp only [tokenize, List.length_cons, tokenize_loop, h]
    cases cs.length <;> simp [tokenize_loop]

/-- C8 (lexical priority): for every non-empty word `w` of letters (`[a-zA-Z]`),
`tokenize` returns exactly one token, with text `w` and kind `DEF` when `w` is
`def`, `END` when `w` is `end`, and `IDENTIFIER` otherwise; the same holds when
`w` is the text of the input file. -/
theorem C8_lexical_priority (w : Str) (hne : w ≠ []) (hw : ∀ c ∈ w, isLetter c = true) :
    tokenize w = .ok [⟨if w = "def".toList then Token.DEF
        else if w = "end".toList then Token.END else Token.IDENTIFIER, w⟩]
    ∧ tokenize (Tokenizer w) = tokenize w := by
  constructor
  · by_cases hdef : w = "def".toList
    · subst hdef; rfl
    · by_cases hend : w = "end".toList
      · subst hend; rfl
      · simp only [hdef, hend, if_false]
        exact tokenize_single w _ hne (tokenize_one_identifier w hne hw hdef hend)
  · have : Tokenizer w = w := by
      unfold Tokenizer
      rw [List.filter_eq_self]
      intro c hc
      have := hw c hc
      rcases Decidable.em (c = '\n') with rfl | h
      · exact absurd this (by decide)
      · simpa using h
    rw [this]

/-- The input `def` alone is one `DEF` token, and the word `define` one
`IDENTIFIER` token: instances of C8. -/
theorem C8_lexical_priority_witness :
    (tokenize "def".toList = .ok [⟨Token.DEF, "def".toList⟩]
      ∧ tokenize (Tokenizer "def".toList) = tokenize "def".toList)
    ∧ (tokenize "define".toList = .ok [⟨Token.IDENTIFIER, "define".toList⟩]
      ∧ tokenize (Tokenizer "define".toList) = tokenize "define".toList) :=
  ⟨C8_lexical_priority "def".toList (by decide) (by decide),
   C8_lexical_priority "define".toList (by decide) (by decide)⟩

/-! ## The tokenizer never runs out of fuel -/

theorem trim_length_le (str : Str) : (trim str).length ≤ str.length := by
  unfold trim
  exact (List.dropWhile_sublist _).length_le

/-- A rule that matches, matches a non-empty text in a non-empty string. -/
theorem regex_search_nonempty {code result : Str} {t : Nat}
    (h : regex_search code t = some result) : result ≠ [] ∧ code ≠ [] := by
  have hkw : ∀ kw : Str, kw ≠ [] → matchKeyword kw code = some result →
      result ≠ [] ∧ code ≠ [] := by
    intro kw hkw h
    unfold matchKeyword at h
    split at h
    · rename_i hc
      simp only [Bool.and_eq_true] at hc
      simp at h
      subst h
      refine ⟨hkw, ?_⟩
      rintro rfl
      cases kw with
      | nil => exact hkw rfl
      | cons k ks => simp [List.isPrefixOf] at hc
    · simp at h
  have hcls : ∀ cls : Char → Bool, matchClass cls code = some result →
      result ≠ [] ∧ code ≠ [] := by
    intro cls h
    cases code with
    | nil => simp [matchClass] at h
    | cons c cs =>
      simp only [matchClass] at h
      split at h
      · simp only [Option.map_eq_some'] at h
        obtain ⟨n, _, rfl⟩ := h
        simp
      · simp at h
  have hat : ∀ ch : Char, matchAtStart ch code = some result → result ≠ [] ∧ code ≠ [] := by
    intro ch h
    unfold matchAtStart at h
    split at h
    · rename_i hc
      simp at h
      subst h
      refine ⟨by simp, ?_⟩
      rintro rfl
      simp at hc
    · simp at h
  have hany : ∀ ch : Char, matchAnywhere ch code = some result → result ≠ [] ∧ code ≠ [] := by
    intro ch h
    unfold matchAnywhere at h
    split at h
    · rename_i hc
      simp at h
      subst h
      refine ⟨by simp, ?_⟩
      rintro rfl
      simp at hc
    · simp at h
  match t, h with
  | 0, h => exact hkw _ (by decide) h
  | 1, h => exact hkw _ (by decide) h
  | 2, h => exact hcls _ h
  | 3, h => exact hcls _ h
  | 4, h => exact hat _ h
  | 5, h => exact hat _ h
  | 6, h => exact hany _ h
  | n + 7, h => simp [regex_search] at h

theorem tokenize_one_from_shrinks (code : Str) (fuel t : Nat) (r : Token × Str)
    (h : tokenize_one_from code fuel t = .ok r) : r.2.length < code.length := by
  induction fuel generalizing t with
  | zero => simp [tokenize_one_from] at h
  | succ fuel ih =>
    unfold tokenize_one_from at h
    split at h
    · rename_i result hres
      obtain ⟨h1, h2⟩ := regex_search_nonempty hres
      simp at h
      rw [← h]
      have := trim_length_le (List.drop result.length code)
      have h3 : 0 < result.length := List.length_pos.mpr h1
      have h4 : 0 < code.length := List.length_pos.mpr h2
      simp only [List.length_drop] at this
      simp only
      omega
    · exact ih _ h

/-- Every call of `tokenize_one` that returns leaves a shorter `code`. -/
theorem tokenize_one_shrinks (code : Str) (r : Token × Str)
    (h : tokenize_one code = .ok r) : r.2.length < code.length :=
  tokenize_one_from_shrinks code N 0 r h

theorem tokenize_one_from_ne_out_of_fuel (code : Str) (fuel t : Nat) :
    tokenize_one_from code fuel t ≠ .error .out_of_fuel := by
  induction fuel generalizing t with
  | zero => simp [tokenize_one_from]
  | succ fuel ih =>
    unfold tokenize_one_from
    split
    · simp
    · exact ih _

theorem tokenize_loop_ne_out_of_fuel (fuel : Nat) : ∀ (code : Str) (tokens : List Token),
    code.length ≤ fuel → tokenize_loop fuel code tokens ≠ .error .out_of_fuel := by
  induction fuel with
  | zero =>
    intro code tokens h
    have : code.length = 0 := by omega
    simp [tokenize_loop, this]
  | succ fuel ih =>
    intro code tokens h
    unfold tokenize_loop
    split
    · simp
    · split
      · rename_i token code' hone
        have := tokenize_one_shrinks code (token, code') hone
        exact ih _ _ (by simp at this; omega)
      · rename_i e hone
        intro he
        simp at he
        subst he
        exact tokenize_one_from_ne_out_of_fuel code N 0 hone

/-- The fuel that `tokenize` supplies is never spent: `tokenize` ends in a
token sequence or in the undefined behaviour of `tokenize_one`. -/
theorem tokenize_ne_out_of_fuel (code : Str) : tokenize code ≠ .error .out_of_fuel :=
  tokenize_loop_ne_out_of_fuel code.length code [] (Nat.le_refl _)

/-! ## The parser never runs out of fuel -/

theorem bind_eq_ok {α β : Type} {x : Except Err α} {f : α → Except Err β} {b : β} :
    (x >>= f) = .ok b ↔ ∃ a, x = .ok a ∧ f a = .ok b := by
  cases x <;> simp [bind, Except.bind]

theorem bind_eq_error {α β : Type} {x : Except Err α} {f : α → Except Err β} {e : Err} :
    (x >>= f) = .error e ↔ x = .error e ∨ ∃ a, x = .ok a ∧ f a = .error e := by
  cases x <;> simp [bind, Except.bind]

theorem consume_ok {ts : List Token} {ty : Int} {v : Str} {ts' : List Token}
    (h : consume ts ty = .ok (v, ts')) : ∃ t, ts = t :: ts' ∧ t.type = ty ∧ t.value = v := by
  cases ts with
  | nil => simp [consume] at h
  | cons t rest =>
    by_cases ht : t.type = ty
    · simp [consume, ht] at h
      exact ⟨t, by rw [h.2], ht, h.1⟩
    · simp [consume, ht] at h

theorem consume_length {ts : List Token} {ty : Int} {r : Str × List Token}
    (h : consume ts ty = .ok r) : ts.length = r.2.length + 1 := by
  obtain ⟨v, ts'⟩ := r
  obtain ⟨t, rfl, _, _⟩ := consume_ok h
  simp

theorem parse_int_length {ts : List Token} {r : ExprNode × List Token}
    (h : parse_int ts = .ok r) : r.2.length < ts.length := by
  simp only [parse_int, bind_eq_ok] at h
  obtain ⟨a, ha, h⟩ := h
  have := consume_length ha
  simp [pure, Except.pure] at h
  rw [← h]; simp; omega

theorem parse_var_ref_length {ts : List Token} {r : ExprNode × List Token}
    (h : parse_var_ref ts = .ok r) : r.2.length < ts.length := by
  simp only [parse_var_ref, bind_eq_ok] at h
  obtain ⟨a, ha, h⟩ := h
  have := consume_length ha
  simp [pure, Except.pure] at h
  rw [← h]; simp; omega

theorem parse_shrinks (f : Nat) :
    (∀ ts r, parse_expr f ts = .ok r → r.2.length < ts.length)
    ∧ (∀ ts r, parse_call f ts = .ok r → r.2.length < ts.length)
    ∧ (∀ ts r, parse_arg_exprs f ts = .ok r → r.2.length < ts.length)
    ∧ (∀ ts acc r, parse_arg_exprs_loop f ts acc = .ok r → r.2.length ≤ ts.length) := by
  induction f with
  | zero =>
    refine ⟨?_, ?_, ?_, ?_⟩ <;> intros <;> simp_all [parse_expr, parse_call, parse_arg_exprs,
      parse_arg_exprs_loop]
  | succ f ih =>
    obtain ⟨ihe, ihc, iha, ihl⟩ := ih
    refine ⟨?_, ?_, ?_, ?_⟩
    · intro ts r h
      simp only [parse_expr, bind_eq_ok] at h
      obtain ⟨int, _, h⟩ := h
      cases int
      · simp only [Bool.false_eq_true, if_false, bind_eq_ok] at h
        obtain ⟨call, _, h⟩ := h
        cases call
        · exact parse_var_ref_length h
        · exact ihc _ _ h
      · exact parse_int_length h
    · intro ts r h
      simp only [parse_call, bind_eq_ok] at h
      obtain ⟨a, ha, b, hb, h⟩ := h
      have h1 := consume_length ha
      have h2 := iha _ _ hb
      simp [pure, Except.pure] at h
      rw [← h]; simp; omega
    · intro ts r h
      simp only [parse_arg_exprs, bind_eq_ok] at h
      obtain ⟨a, ha, closed, _, h⟩ := h
      have h1 := consume_length ha
      cases closed
      · simp only [Bool.not_false, if_true, bind_eq_ok] at h
        obtain ⟨x, hx, y, hy, c, hc, h⟩ := h
        have := ihe _ _ hx
        have := ihl _ _ _ hy
        have := consume_length hc
        simp [pure, Except.pure] at h
        rw [← h]; simp; omega
      · simp only [Bool.not_true, Bool.false_eq_true, if_false, bind_eq_ok] at h
        obtain ⟨y, hy, c, hc, h⟩ := h
        have := consume_length hc
        simp [pure, Except.pure] at h hy
        rw [← h]; simp
        rw [← hy] at this; simp at this; omega
    · intro ts acc r h
      simp only [parse_arg_exprs_loop, bind_eq_ok] at h
      obtain ⟨more, _, h⟩ := h
      cases more
      · simp [pure, Except.pure] at h
        rw [← h]
      · simp only [if_true, bind_eq_ok] at h
        obtain ⟨a, ha, x, hx, h⟩ := h
        have := consume_length ha
        have := ihe _ _ hx
        have := ihl _ _ _ h
        omega

theorem peek_ne_out_of_fuel (ts : List Token) (ty offset : Int) :
    peek ts ty offset ≠ .error .out_of_fuel := by
  unfold peek
  split
  · simp
  · split <;> simp

theorem consume_ne_out_of_fuel (ts : List Token) (ty : Int) :
    consume ts ty ≠ .error .out_of_fuel := by
  unfold consume
  split
  · simp
  · split <;> simp

theorem push_front_value_ne_out_of_fuel (ts : List Token) (acc : List Str) :
    push_front_value ts acc ≠ .error .out_of_fuel := by
  unfold push_front_value
  split <;> simp

theorem push_front_value_length {ts : List Token} {acc : List Str} {r : List Str × List Token}
    (h : push_front_value ts acc = .ok r) : ts.length = r.2.length + 1 := by
  cases ts with
  | nil => simp [push_front_value] at h
  | cons t rest =>
    simp [push_front_value] at h
    rw [← h]; simp

theorem parse_int_ne_out_of_fuel (ts : List Token) : parse_int ts ≠ .error .out_of_fuel := by
  intro h
  simp only [parse_int, bind_eq_error] at h
  rcases h with h | ⟨a, _, h⟩
  · exact consume_ne_out_of_fuel _ _ h
  · simp [pure, Except.pure] at h

theorem parse_var_ref_ne_out_of_fuel (ts : List Token) :
    parse_var_ref ts ≠ .error .out_of_fuel := by
  intro h
  simp only [parse_var_ref, bind_eq_error] at h
  rcases h with h | ⟨a, _, h⟩
  · exact consume_ne_out_of_fuel _ _ h
  · simp [pure, Except.pure] at h

theorem peek_call_ne_out_of_fuel (ts : List Token) : peek_call ts ≠ .error .out_of_fuel := by
  intro h
  simp only [peek_call, bind_eq_error] at h
  rcases h with h | ⟨ident, _, h⟩
  · exact peek_ne_out_of_fuel _ _ _ h
  · cases ident
    · simp [pure, Except.pure] at h
    · simp only [if_true] at h
      exact peek_ne_out_of_fuel _ _ _ h

/-- With two units of fuel per token and two more, no function of the
expression parser runs out of fuel. -/
theorem parse_fuel (f : Nat) :
    (∀ ts, 2 * ts.length + 2 ≤ f → parse_expr f ts ≠ .error .out_of_fuel)
    ∧ (∀ ts, 2 * ts.length + 1 ≤ f → parse_call f ts ≠ .error .out_of_fuel)
    ∧ (∀ ts, 2 * ts.length + 2 ≤ f → parse_arg_exprs f ts ≠ .error .out_of_fuel)
    ∧ (∀ ts acc, 2 * ts.length + 2 ≤ f →
        parse_arg_exprs_loop f ts acc ≠ .error .out_of_fuel) := by
  induction f with
  | zero => refine ⟨?_, ?_, ?_, ?_⟩ <;> intros <;> omega
  | succ f ih =>
    obtain ⟨ihe, ihc, iha, ihl⟩ := ih
    refine ⟨?_, ?_, ?_, ?_⟩
    · intro ts hf h
      simp only [parse_expr, bind_eq_error] at h
      rcases h with h | ⟨int, _, h⟩
      · exact peek_ne_out_of_fuel _ _ _ h
      · cases int
        · simp only [Bool.false_eq_true, if_false, bind_eq_error] at h
          rcases h with h | ⟨call, _, h⟩
          · exact peek_call_ne_out_of_fuel _ h
          · cases call
            · exact parse_var_ref_ne_out_of_fuel _ h
            · exact ihc ts (by omega) h
        · exact parse_int_ne_out_of_fuel _ h
    · intro ts hf h
      simp only [parse_call, bind_eq_error] at h
      rcases h with h | ⟨a, ha, h⟩
      · exact consume_ne_out_of_fuel _ _ h
      · have := consume_length ha
        rcases h with h | ⟨b, _, h⟩
        · exact iha _ (by omega) h
        · simp [pure, Except.pure] at h
    · intro ts hf h
      simp only [parse_arg_exprs, bind_eq_error] at h
      rcases h with h | ⟨a, ha, h⟩
      · exact consume_ne_out_of_fuel _ _ h
      · have := consume_length ha
        rcases h with h | ⟨closed, _, h⟩
        · exact peek_ne_out_of_fuel _ _ _ h
        · cases closed
          · simp only [Bool.not_false, if_true, bind_eq_error] at h
            rcases h with h | ⟨x, hx, h⟩
            · exact ihe _ (by omega) h
            · have := (parse_shrinks f).1 _ _ hx
              rcases h with h | ⟨y, _, h⟩
              · exact ihl _ _ (by omega) h
              · rcases h with h | ⟨c, _, h⟩
                · exact consume_ne_out_of_fuel _ _ h
                · simp [pure, Except.pure] at h
          · simp only [Bool.not_true, Bool.false_eq_true, if_false, bind_eq_error] at h
            rcases h with h | ⟨y, _, h⟩
            · simp [pure, Except.pure] at h
            · rcases h with h | ⟨c, _, h⟩
              · exact consume_ne_out_of_fuel _ _ h
              · simp [pure, Except.pure] at h
    · intro ts acc hf h
      simp only [parse_arg_exprs_loop, bind_eq_error] at h
      rcases h with h | ⟨more, _, h⟩
      · exact peek_ne_out_of_fuel _ _ _ h
      · cases more
        · simp [pure, Except.pure] at h
        · simp only [if_true, bind_eq_error] at h
          rcases h with h | ⟨a, ha, h⟩
          · exact consume_ne_out_of_fuel _ _ h
          · have := consume_length ha
            rcases h with h | ⟨x, hx, h⟩
            · exact ihe _ (by omega) h
            · have := (parse_shrinks f).1 _ _ hx
              exact ihl _ _ (by omega) h

theorem parse_arg_names_loop_fuel (f : Nat) : ∀ (ts : List Token) (acc : List Str),
    ts.length + 1 ≤ f → parse_arg_names_loop f ts acc ≠ .error .out_of_fuel := by
  induction f with
  | zero => intros; omega
  | succ f ih =>
    intro ts acc hf h
    simp only [parse_arg_names_loop, bind_eq_error] at h
    rcases h with h | ⟨more, _, h⟩
    · exact peek_ne_out_of_fuel _ _ _ h
    · cases more
      · simp [pure, Except.pure] at h
      · simp only [if_true, bind_eq_error] at h
        rcases h with h | ⟨a, ha, h⟩
        · exact consume_ne_out_of_fuel _ _ h
        · have := consume_length ha
          rcases h with h | ⟨b, hb, h⟩
          · exact push_front_value_ne_out_of_fuel _ _ h
          · have := push_front_value_length hb
            exact ih _ _ (by omega) h

theorem parse_arg_names_ne_out_of_fuel (ts : List Token) :
    parse_arg_names ts ≠ .error .out_of_fuel := by
  intro h
  simp only [parse_arg_names, bind_eq_error] at h
  rcases h with h | ⟨a, _, h⟩
  · exact consume_ne_out_of_fuel _ _ h
  · rcases h with h | ⟨first, _, h⟩
    · exact peek_ne_out_of_fuel _ _ _ h
    · cases first
      · simp only [Bool.false_eq_true, if_false, bind_eq_error] at h
        rcases h with h | ⟨y, _, h⟩
        · simp [pure, Except.pure] at h
        · rcases h with h | ⟨c, _, h⟩
          · exact consume_ne_out_of_fuel _ _ h
          · simp [pure, Except.pure] at h
      · simp only [if_true, bind_eq_error] at h
        rcases h with h | ⟨y, _, h⟩
        · exact push_front_value_ne_out_of_fuel _ _ h
        · rcases h with h | ⟨c, _, h⟩
          · exact parse_arg_names_loop_fuel _ _ _ (by omega) h
          · rcases h with h | ⟨d, _, h⟩
            · exact consume_ne_out_of_fuel _ _ h
            · simp [pure, Except.pure] at h

/-- The fuel that `parse_def` and `parse_arg_names` supply is never spent:
`parse` ends in a tree, a thrown exception or undefined behaviour. -/
theorem parse_ne_out_of_fuel (ts : List Token) : parse ts ≠ .error .out_of_fuel := by
  intro h
  simp only [parse, parse_def, bind_eq_error] at h
  rcases h with h | ⟨a, _, h⟩
  · exact consume_ne_out_of_fuel _ _ h
  · rcases h with h | ⟨b, _, h⟩
    · exact consume_ne_out_of_fuel _ _ h
    · rcases h with h | ⟨c, _, h⟩
      · exact parse_arg_names_ne_out_of_fuel _ h
      · rcases h with h | ⟨d, _, h⟩
        · exact (parse_fuel _).1 _ (by unfold expr_fuel; omega) h
        · simp [pure, Except.pure] at h

/-! ## The lookahead of `parse_expr` at the end of the token stream -/

/-- An identifier followed by at least one more token: `parse_expr` goes to
`parse_call` when that token is an `OPAREN`, and otherwise returns the variable
reference and removes the identifier alone. -/
theorem parse_expr_identifier_followed (fuel : Nat) (value : Str) (next : Token)
    (rest : List Token) :
    parse_expr (fuel + 1) (⟨Token.IDENTIFIER, value⟩ :: next :: rest)
      = if next.type = Token.OPAREN
        then parse_call fuel (⟨Token.IDENTIFIER, value⟩ :: next :: rest)
        else .ok (.VarNode value, next :: rest) := by
  by_cases h : next.type = Token.OPAREN
  · simp [parse_expr, peek, peek_call, h, bind, Except.bind, pure, Except.pure]
  · simp [parse_expr, peek, peek_call, h, bind, Except.bind, pure, Except.pure, parse_var_ref,
      consume]

/-- C1 (round trip), at the definition `def f(x) x`: the text tokenizes to the
six expected tokens, and `parse` on them throws `out_of_range` instead of
returning the definition with body `VariableReference x`. -/
theorem C1_round_trip_variable_body :
    tokenize (Tokenizer "def f(x) x".toList)
      = .ok [⟨Token.DEF, "def".toList⟩, ⟨Token.IDENTIFIER, "f".toList⟩,
          ⟨Token.OPAREN, "(".toList⟩, ⟨Token.IDENTIFIER, "x".toList⟩,
          ⟨Token.CPAREN, ")".toList⟩, ⟨Token.IDENTIFIER, "x".toList⟩]
    ∧ parse [⟨Token.DEF, "def".toList⟩, ⟨Token.IDENTIFIER, "f".toList⟩,
          ⟨Token.OPAREN, "(".toList⟩, ⟨Token.IDENTIFIER, "x".toList⟩,
          ⟨Token.CPAREN, ")".toList⟩, ⟨Token.IDENTIFIER, "x".toList⟩]
      = .error .out_of_range :=
  ⟨rfl, rfl⟩

/-- C2 (call disambiguation), at an identifier that is the last token of the
stream: `parse_expr` throws `out_of_range` from `peek(OPAREN, 1)` and returns no
variable reference; so does `parse` on the tokens of `def h(x) x`. -/
theorem C2_identifier_last_token :
    (∀ (fuel : Nat) (value : Str),
      parse_expr (fuel + 1) [⟨Token.IDENTIFIER, value⟩] = .error .out_of_range)
    ∧ (tokenize (Tokenizer "def h(x) x".toList) >>= parse) = .error .out_of_range :=
  ⟨fun _ _ => rfl, rfl⟩

/-! ## The generator on empty deques, and what it does to the tree -/

/-- The loop over the parameters appends each one after a `", "`. -/
theorem generate_helper_names_eq (names : List Str) (args : Str) :
    generate_helper_names names args
      = args ++ (names.map (fun name => ", ".toList ++ name)).flatten := by
  induction names generalizing args with
  | nil => simp [generate_helper_names]
  | cons name names ih => simp [generate_helper_names, ih]

/-- The `DEFNODE` case on a non-empty parameter list: the text has the
parameters in order, separated by `", "`, and the tree loses its first
parameter. -/
theorem generate_def_nonempty (name front : Str) (popped : List Str) (body body' : ExprNode)
    (text : Str) (hbody : generate_helper_expr body = .ok (text, body')) :
    generate (.def_node ⟨name, front :: popped, body⟩)
      = .ok ("function ".toList ++ name ++ "(".toList
          ++ (front ++ (popped.map (fun p => ", ".toList ++ p)).flatten)
          ++ ") \x7breturn ".toList ++ text ++ "\x7d;".toList,
        .def_node ⟨name, popped, body'⟩) := by
  simp [generate, generate_helper, hbody, generate_helper_names_eq, bind, Except.bind, pure,
    Except.pure]

/-- Joining with a separator is the first item followed by each further item
behind a separator. -/
theorem intercalate_cons (sep x : Str) (xs : List Str) :
    sep.intercalate (x :: xs) = x ++ (xs.map (fun y => sep ++ y)).flatten := by
  induction xs generalizing x with
  | nil => simp [List.intercalate]
  | cons y ys ih =>
    have h := ih y
    simp only [List.intercalate, List.intersperse, List.flatten, List.map] at h ⊢
    rw [h]
    simp

mutual
/-- On an expression all of whose calls have arguments, `generate_helper`
returns the reference rendering and leaves the tree `popped`. -/
theorem generate_helper_expr_eq : ∀ (e : ExprNode), calls_have_arguments e = true →
    generate_helper_expr e = .ok (render e, popped e)
  | .IntNode _, _ => rfl
  | .VarNode _, _ => rfl
  | .CallNode _ [], h => by simp [calls_have_arguments] at h
  | .CallNode name (e :: es), h => by
    simp only [calls_have_arguments, Bool.and_eq_true] at h
    have h1 := generate_helper_expr_eq e h.1
    have h2 := generate_helper_args_eq es (render e) h.2
    simp [generate_helper_expr, h1, h2, bind, Except.bind, pure, Except.pure, render,
      render_each, popped, intercalate_cons]

/-- The loop over the arguments appends each rendering behind a `", "`. -/
theorem generate_helper_args_eq : ∀ (es : List ExprNode) (acc : Str),
    all_have_arguments es = true →
    generate_helper_args es acc
      = .ok (acc ++ ((render_each es).map (fun y => ", ".toList ++ y)).flatten, popped_each es)
  | [], _, _ => by simp [generate_helper_args, render_each, popped_each]
  | e :: es, acc, h => by
    simp only [all_have_arguments, Bool.and_eq_true] at h
    have h1 := generate_helper_expr_eq e h.1
    have h2 := generate_helper_args_eq es (acc ++ (", ".toList ++ render e)) h.2
    simp only [generate_helper_args, h1, h2, bind, Except.bind, pure, Except.pure, render_each,
      popped_each]
    simp
end

/-- On a definition with at least one parameter, all of whose calls have
arguments, `generate` returns the reference rendering; the tree it leaves has
lost its first parameter and the first argument of every call. -/
theorem generate_eq_render_def (name front : Str) (rest : List Str) (body : ExprNode)
    (h : calls_have_arguments body = true) :
    generate (.def_node ⟨name, front :: rest, body⟩)
      = .ok (render_def ⟨name, front :: rest, body⟩, .def_node ⟨name, rest, popped body⟩) := by
  rw [generate_def_nonempty name front rest body (popped body) (render body)
    (generate_helper_expr_eq body h)]
  simp [render_def, intercalate_cons]

/-- C3 (rendering of a definition), at an empty parameter list: for every name
and body, `generate` takes `front()` of the empty `args`, which is undefined
behaviour, and yields no text `function name() ...`. -/
theorem C3_generate_empty_parameters (name : Str) (body : ExprNode) :
    generate (.def_node ⟨name, [], body⟩) = .error .undefined :=
  rfl

/-- C4 (rendering of expressions), at a call with no arguments: for every
callee, `generate_helper` takes `front()` of the empty `arg_exprs`, which is
undefined behaviour, and yields no text `callee()`. -/
theorem C4_generate_call_without_arguments (name : Str) :
    generate_helper (.expr_node (.CallNode name [])) = .error .undefined :=
  rfl

/-- C5 (determinism), on the tree of `def f(x, y) add(x, y)`: the first call of
`generate` returns `function f(x, y) {return add(x, y)};` and leaves the tree
without its first parameter and first argument; the second call, on the tree as
the first left it, returns `function f(y) {return add(y)};`. -/
theorem C5_generate_twice_differs :
    generate (.def_node ⟨"f".toList, ["x".toList, "y".toList],
        .CallNode "add".toList [.VarNode "x".toList, .VarNode "y".toList]⟩)
      = .ok ("function f(x, y) \x7breturn add(x, y)\x7d;".toList,
          .def_node ⟨"f".toList, ["y".toList], .CallNode "add".toList [.VarNode "y".toList]⟩)
    ∧ generate (.def_node ⟨"f".toList, ["y".toList],
        .CallNode "add".toList [.VarNode "y".toList]⟩)
      = .ok ("function f(y) \x7breturn add(y)\x7d;".toList,
          .def_node ⟨"f".toList, [], .CallNode "add".toList []⟩)
    ∧ "function f(x, y) \x7breturn add(x, y)\x7d;".toList
      ≠ "function f(y) \x7breturn add(y)\x7d;".toList :=
  ⟨rfl, rfl, by decide⟩

/-- C6 (zero arity), at `def g() 5`: the text parses to the definition `g` with
no parameters and body `IntegerLiteral 5`, and `generate` on that definition is
undefined behaviour, so the program yields no text
`function g() {return 5};`. -/
theorem C6_zero_arity_generate_undefined :
    (tokenize (Tokenizer "def g() 5".toList) >>= parse)
      = .ok (⟨"g".toList, [], .IntNode "5".toList⟩, [])
    ∧ generate (.def_node ⟨"g".toList, [], .IntNode "5".toList⟩) = .error .undefined
    ∧ compile "def g() 5".toList = .error .undefined :=
  ⟨rfl, rfl, rfl⟩

/-- C7 (the pipeline keeps the body text): the nested call
`def k(x) add(add(x, 1), 2)` gives the claimed text, but the canonical texts
`def k(x) x` and `def k(x) now()` give no text: the first ends in
`out_of_range` in the parser, the second in undefined behaviour in the
generator. -/
theorem C7_pipeline_body_text :
    compile "def k(x) add(add(x, 1), 2)".toList
      = .ok "function k(x) \x7breturn add(add(x, 1), 2)\x7d;".toList
    ∧ compile "def k(x) x".toList = .error .out_of_range
    ∧ compile "def k(x) now()".toList = .error .undefined :=
  ⟨rfl, rfl, rfl⟩

/-! ## The comma rule and the end of `tokenize_one` -/

/-- C9 (lexing fails on unrecognized input): on the input `%,` no rule matches
a prefix, yet `tokenize` returns two `COMMA` tokens, because the comma rule
finds the comma behind the `%` and the `%` is what is erased; on `%` alone no
rule matches and `tokenize_one` ends without a `return`, which is undefined
behaviour and not a thrown error. -/
theorem C9_unrecognized_input_not_rejected :
    tokenize "%,".toList = .ok [⟨Token.COMMA, ",".toList⟩, ⟨Token.COMMA, ",".toList⟩]
    ∧ tokenize_one "%,".toList = .ok (⟨Token.COMMA, ",".toList⟩, ",".toList)
    ∧ tokenize "%".toList = .error .undefined :=
  ⟨rfl, rfl, rfl⟩

/-- C10 (exact consumption), at the input ` f(x, y)` with a leading space: the
first step emits a `COMMA` token whose text is not a prefix of the input and
erases the space, so the texts of the seven returned tokens concatenate to
`,f(x,y)` and not to `f(x,y)`. -/
theorem C10_leading_space_invents_comma :
    tokenize " f(x, y)".toList
      = .ok [⟨Token.COMMA, ",".toList⟩, ⟨Token.IDENTIFIER, "f".toList⟩,
          ⟨Token.OPAREN, "(".toList⟩, ⟨Token.IDENTIFIER, "x".toList⟩,
          ⟨Token.COMMA, ",".toList⟩, ⟨Token.IDENTIFIER, "y".toList⟩,
          ⟨Token.CPAREN, ")".toList⟩]
    ∧ tokenize_one " f(x, y)".toList = .ok (⟨Token.COMMA, ",".toList⟩, "f(x, y)".toList)
    ∧ ",f(x,y)".toList ≠ " f(x, y)".toList.filter (fun c => c != ' ') :=
  ⟨rfl, rfl, by decide⟩

/-! ## The parser's primitives -/

/-- On a non-empty deque `consume` removes the front token and returns its text
when the kinds agree, and throws `runtime_error` with the two kinds otherwise. -/
theorem consume_cons (token : Token) (rest : List Token) (type : Int) :
    consume (token :: rest) type
      = if token.type = type then .ok (token.value, rest)
        else .error (.runtime_error token.type type) :=
  rfl

/-- C14 (consume), at the empty token sequence: for every expected kind,
`consume` calls `front()` and `pop_front()` on the empty deque, which is
undefined behaviour and no thrown error; `parse` reaches it on the tokens of an
empty input file. -/
theorem C14_consume_empty_undefined :
    (∀ expected : Int, consume [] expected = .error .undefined)
    ∧ (tokenize (Tokenizer []) >>= parse) = .error .undefined :=
  ⟨fun _ => rfl, rfl⟩

/-- C15 (peek): for every token sequence, kind and offset, `peek` returns
whether the token at index `offset` has the kind when `offset` is smaller than
the length, and throws `out_of_range` when `offset` is the length or more; the
deque after the call is the deque before it. -/
theorem C15_peek_bounds_checked (tokens : List Token) (kind : Int) (offset : Nat) :
    peek tokens kind offset
      = (if h : offset < tokens.length then .ok ((tokens.get ⟨offset, h⟩).type == kind)
         else .error .out_of_range)
    ∧ peek_tokens_after tokens kind offset = tokens := by
  refine ⟨?_, rfl⟩
  unfold peek
  have h0 : ¬ ((offset : Int) < 0) := by omega
  simp only [h0, if_false, Int.toNat_ofNat]
  by_cases h : offset < tokens.length
  · simp [h, List.get?_eq_get h]
  · have hnone : tokens.get? offset = none := List.get?_eq_none.mpr (Nat.le_of_not_lt h)
    rw [hnone]
    simp [h]

/-- A negative offset is no index either: `peek` throws `out_of_range`. -/
theorem peek_negative (tokens : List Token) (kind offset : Int) (h : offset < 0) :
    peek tokens kind offset = .error .out_of_range := by
  simp [peek, h]

/-! ## The parameter loop of `parse_arg_names` -/

/-- C11 (parameters are identifiers), at the tokens of `def f(x, 1) 2`: after
the comma `parse_arg_names` takes the text of the `INTEGER` token `1` as a
parameter without looking at its kind, and `parse` returns the definition with
parameters `x` and `1` instead of failing. -/
theorem C11_integer_parameter_accepted :
    tokenize (Tokenizer "def f(x, 1) 2".toList)
      = .ok [⟨Token.DEF, "def".toList⟩, ⟨Token.IDENTIFIER, "f".toList⟩,
          ⟨Token.OPAREN, "(".toList⟩, ⟨Token.IDENTIFIER, "x".toList⟩,
          ⟨Token.COMMA, ",".toList⟩, ⟨Token.INTEGER, "1".toList⟩,
          ⟨Token.CPAREN, ")".toList⟩, ⟨Token.INTEGER, "2".toList⟩]
    ∧ parse [⟨Token.DEF, "def".toList⟩, ⟨Token.IDENTIFIER, "f".toList⟩,
          ⟨Token.OPAREN, "(".toList⟩, ⟨Token.IDENTIFIER, "x".toList⟩,
          ⟨Token.COMMA, ",".toList⟩, ⟨Token.INTEGER, "1".toList⟩,
          ⟨Token.CPAREN, ")".toList⟩, ⟨Token.INTEGER, "2".toList⟩]
      = .ok (⟨"f".toList, ["x".toList, "1".toList], .IntNode "2".toList⟩, []) :=
  ⟨rfl, rfl⟩

/-! ## The bound on the number of tokens -/

theorem tokenize_loop_length_le (fuel : Nat) : ∀ (code : Str) (tokens result : List Token),
    tokenize_loop fuel code tokens = .ok result →
    result.length ≤ tokens.length + code.length := by
  induction fuel with
  | zero =>
    intro code tokens result h
    unfold tokenize_loop at h
    split at h
    · simp at h; subst h; omega
    · simp at h
  | succ fuel ih =>
    intro code tokens result h
    unfold tokenize_loop at h
    split at h
    · simp at h; subst h; omega
    · split at h
      · rename_i token code' hone
        have h1 := tokenize_one_shrinks code (token, code') hone
        have h2 := ih _ _ _ h
        simp at h1 h2
        omega
      · simp at h

/-- When `tokenize` returns, it returns at most as many tokens as the code has
characters. -/
theorem tokenize_length_le (code : Str) (tokens : List Token)
    (h : tokenize code = .ok tokens) : tokens.length ≤ code.length := by
  have := tokenize_loop_length_le code.length code [] tokens h
  simpa using this

/-- C17 (termination of lexing), at the input `%`: no rule matches, so
`tokenize_one` emits no token, removes no character and reaches the end of the
function without a `return`; that is undefined behaviour, and `tokenize`
returns no token sequence. -/
theorem C17_no_rule_no_progress :
    (∀ t : Nat, regex_search "%".toList t = none)
    ∧ tokenize_one "%".toList = .error .undefined
    ∧ tokenize "%".toList = .error .undefined := by
  refine ⟨?_, rfl, rfl⟩
  intro t
  match t with
  | 0 | 1 | 2 | 3 | 4 | 5 | 6 => rfl
  | n + 7 => rfl

/-! ## The tree after `generate` -/

/-- C18 (generate leaves the tree unchanged), on the tree of
`def k(x) add(add(x, 1), 2)`: after `generate` has returned the text, the
definition has no parameter left and the outer call has lost its first
argument `add(x, 1)`. -/
theorem C18_generate_changes_tree :
    (tokenize (Tokenizer "def k(x) add(add(x, 1), 2)".toList) >>= parse)
      = .ok (⟨"k".toList, ["x".toList],
          .CallNode "add".toList
            [.CallNode "add".toList [.VarNode "x".toList, .IntNode "1".toList],
             .IntNode "2".toList]⟩, [])
    ∧ generate (.def_node ⟨"k".toList, ["x".toList],
          .CallNode "add".toList
            [.CallNode "add".toList [.VarNode "x".toList, .IntNode "1".toList],
             .IntNode "2".toList]⟩)
      = .ok ("function k(x) \x7breturn add(add(x, 1), 2)\x7d;".toList,
          .def_node ⟨"k".toList, [], .CallNode "add".toList [.IntNode "2".toList]⟩) :=
  ⟨rfl, rfl⟩

/-! ## Tokens behind the parsed definition -/

theorem ok_bind {α β : Type} (a : α) (k : α → Except Err β) :
    ((Except.ok a : Except Err α) >>= k) = k a :=
  rfl

theorem error_bind {α β : Type} (e : Err) (k : α → Except Err β) :
    ((Except.error e : Except Err α) >>= k) = .error e :=
  rfl

/-- Sequencing two steps each of which either spends the fuel or returns. -/
theorem bind_fuel_or {α β : Type} {x : Except Err α} {k : α → Except Err β} {a : α} {b : β}
    (hx : x = .error .out_of_fuel ∨ x = .ok a)
    (hk : k a = .error .out_of_fuel ∨ k a = .ok b) :
    (x >>= k) = .error .out_of_fuel ∨ (x >>= k) = .ok b := by
  rcases hx with hx | hx
  · left; rw [hx]; rfl
  · rw [hx, ok_bind]; exact hk

theorem peek_append {ts : List Token} {ty offset : Int} {b : Bool} (extra : List Token)
    (h : peek ts ty offset = .ok b) : peek (ts ++ extra) ty offset = .ok b := by
  unfold peek at h ⊢
  by_cases hoff : offset < 0
  · simp [hoff] at h
  · simp only [hoff, if_false, List.get?_eq_getElem?] at h ⊢
    cases hget : ts[offset.toNat]? with
    | none => rw [hget] at h; simp at h
    | some token =>
      have hlt : offset.toNat < ts.length := by
        by_contra hc
        rw [List.getElem?_eq_none (Nat.le_of_not_lt hc)] at hget
        exact absurd hget (by simp)
      rw [List.getElem?_append_left hlt, hget]
      rw [hget] at h
      exact h

theorem consume_append {ts : List Token} {ty : Int} {r : Str × List Token}
    (extra : List Token) (h : consume ts ty = .ok r) :
    consume (ts ++ extra) ty = .ok (r.1, r.2 ++ extra) := by
  obtain ⟨v, ts'⟩ := r
  obtain ⟨t, rfl, ht, hv⟩ := consume_ok h
  simp [consume, ht, hv]

theorem push_front_value_append {ts : List Token} {acc : List Str}
    {r : List Str × List Token} (extra : List Token)
    (h : push_front_value ts acc = .ok r) :
    push_front_value (ts ++ extra) acc = .ok (r.1, r.2 ++ extra) := by
  cases ts with
  | nil => simp [push_front_value] at h
  | cons t rest =>
    simp [push_front_value] at h
    rw [← h]
    simp [push_front_value]

theorem peek_call_append {ts : List Token} {b : Bool} (extra : List Token)
    (h : peek_call ts = .ok b) : peek_call (ts ++ extra) = .ok b := by
  simp only [peek_call, bind_eq_ok] at h
  obtain ⟨ident, hident, h⟩ := h
  simp only [peek_call, peek_append extra hident, ok_bind]
  cases ident
  · simpa using h
  · simp only [if_true] at h ⊢
    exact peek_append extra h

theorem parse_int_append {ts : List Token} {r : ExprNode × List Token} (extra : List Token)
    (h : parse_int ts = .ok r) : parse_int (ts ++ extra) = .ok (r.1, r.2 ++ extra) := by
  simp only [parse_int, bind_eq_ok] at h
  obtain ⟨a, ha, h⟩ := h
  simp only [parse_int, consume_append extra ha, ok_bind]
  simp [pure, Except.pure] at h ⊢
  rw [← h]
  simp

theorem parse_var_ref_append {ts : List Token} {r : ExprNode × List Token}
    (extra : List Token) (h : parse_var_ref ts = .ok r) :
    parse_var_ref (ts ++ extra) = .ok (r.1, r.2 ++ extra) := by
  simp only [parse_var_ref, bind_eq_ok] at h
  obtain ⟨a, ha, h⟩ := h
  simp only [parse_var_ref, consume_append extra ha, ok_bind]
  simp [pure, Except.pure] at h ⊢
  rw [← h]
  simp

/-- A successful run of the expression parser is repeated, with any fuel that is
not spent, on the same tokens followed by more tokens, which it leaves behind. -/
theorem parse_extend (f : Nat) :
    (∀ ts r extra g, parse_expr f ts = .ok r →
      parse_expr g (ts ++ extra) = .error .out_of_fuel
        ∨ parse_expr g (ts ++ extra) = .ok (r.1, r.2 ++ extra))
    ∧ (∀ ts r extra g, parse_call f ts = .ok r →
      parse_call g (ts ++ extra) = .error .out_of_fuel
        ∨ parse_call g (ts ++ extra) = .ok (r.1, r.2 ++ extra))
    ∧ (∀ ts r extra g, parse_arg_exprs f ts = .ok r →
      parse_arg_exprs g (ts ++ extra) = .error .out_of_fuel
        ∨ parse_arg_exprs g (ts ++ extra) = .ok (r.1, r.2 ++ extra))
    ∧ (∀ ts acc r extra g, parse_arg_exprs_loop f ts acc = .ok r →
      parse_arg_exprs_loop g (ts ++ extra) acc = .error .out_of_fuel
        ∨ parse_arg_exprs_loop g (ts ++ extra) acc = .ok (r.1, r.2 ++ extra)) := by
  induction f with
  | zero =>
    refine ⟨?_, ?_, ?_, ?_⟩ <;> intros <;> simp_all [parse_expr, parse_call, parse_arg_exprs,
      parse_arg_exprs_loop]
  | succ f ih =>
    obtain ⟨ihe, ihc, iha, ihl⟩ := ih
    refine ⟨?_, ?_, ?_, ?_⟩
    · intro ts r extra g h
      cases g with
      | zero => left; simp [parse_expr]
      | succ g =>
        simp only [parse_expr, bind_eq_ok] at h
        obtain ⟨int, hint, h⟩ := h
        simp only [parse_expr, peek_append extra hint, ok_bind]
        cases int
        · simp only [Bool.false_eq_true, if_false, bind_eq_ok] at h
          obtain ⟨call, hcall, h⟩ := h
          simp only [Bool.false_eq_true, if_false, peek_call_append extra hcall, ok_bind]
          cases call
          · right; exact parse_var_ref_append extra h
          · exact ihc _ _ _ _ h
        · right; exact parse_int_append extra h
    · intro ts r extra g h
      cases g with
      | zero => left; simp [parse_call]
      | succ g =>
        simp only [parse_call, bind_eq_ok] at h
        obtain ⟨a, ha, b, hb, h⟩ := h
        simp only [parse_call, consume_append extra ha, ok_bind]
        refine bind_fuel_or (iha _ _ extra g hb) ?_
        right
        simp [pure, Except.pure] at h ⊢
        rw [← h]
        simp
    · intro ts r extra g h
      cases g with
      | zero => left; simp [parse_arg_exprs]
      | succ g =>
        simp only [parse_arg_exprs, bind_eq_ok] at h
        obtain ⟨a, ha, closed, hclosed, h⟩ := h
        simp only [parse_arg_exprs, consume_append extra ha, peek_append extra hclosed, ok_bind]
        cases closed
        · simp only [Bool.not_false, if_true, bind_eq_ok] at h
          obtain ⟨x, hx, y, hy, c, hc, h⟩ := h
          simp only [Bool.not_false, if_true]
          refine bind_fuel_or (ihe _ _ extra g hx) ?_
          refine bind_fuel_or (ihl _ _ _ extra g hy) ?_
          right
          simp only [consume_append extra hc, ok_bind]
          simp [pure, Except.pure] at h ⊢
          rw [← h]
          simp
        · simp only [Bool.not_true, Bool.false_eq_true, if_false, bind_eq_ok] at h
          obtain ⟨y, hy, c, hc, h⟩ := h
          simp only [Bool.not_true, Bool.false_eq_true, if_false]
          right
          simp [pure, Except.pure] at hy
          subst hy
          simp only [pure, Except.pure, ok_bind, consume_append extra hc]
          simp [pure, Except.pure] at h ⊢
          rw [← h]
          simp
    · intro ts acc r extra g h
      cases g with
      | zero => left; simp [parse_arg_exprs_loop]
      | succ g =>
        simp only [parse_arg_exprs_loop, bind_eq_ok] at h
        obtain ⟨more, hmore, h⟩ := h
        simp only [parse_arg_exprs_loop, peek_append extra hmore, ok_bind]
        cases more
        · right
          simp [pure, Except.pure] at h ⊢
          rw [← h]
          simp
        · simp only [if_true, bind_eq_ok] at h
          obtain ⟨a, ha, x, hx, h⟩ := h
          simp only [if_true, consume_append extra ha, ok_bind]
          refine bind_fuel_or (ihe _ _ extra g hx) ?_
          exact ihl _ _ _ extra g h

theorem parse_arg_names_loop_extend (f : Nat) : ∀ (ts : List Token) (acc : List Str)
    (r : List Str × List Token) (extra : List Token) (g : Nat),
    parse_arg_names_loop f ts acc = .ok r →
    parse_arg_names_loop g (ts ++ extra) acc = .error .out_of_fuel
      ∨ parse_arg_names_loop g (ts ++ extra) acc = .ok (r.1, r.2 ++ extra) := by
  induction f with
  | zero => intro ts acc r extra g h; simp [parse_arg_names_loop] at h
  | succ f ih =>
    intro ts acc r extra g h
    cases g with
    | zero => left; simp [parse_arg_names_loop]
    | succ g =>
      simp only [parse_arg_names_loop, bind_eq_ok] at h
      obtain ⟨more, hmore, h⟩ := h
      simp only [parse_arg_names_loop, peek_append extra hmore, ok_bind]
      cases more
      · right
        simp [pure, Except.pure] at h ⊢
        rw [← h]
        simp
      · simp only [if_true, bind_eq_ok] at h
        obtain ⟨a, ha, b, hb, h⟩ := h
        simp only [if_true, consume_append extra ha, push_front_value_append extra hb, ok_bind]
        exact ih _ _ _ extra g h

theorem parse_arg_names_extend {ts : List Token} {r : List Str × List Token}
    (extra : List Token) (h : parse_arg_names ts = .ok r) :
    parse_arg_names (ts ++ extra) = .ok (r.1, r.2 ++ extra) := by
  have hor : parse_arg_names (ts ++ extra) = .error .out_of_fuel
      ∨ parse_arg_names (ts ++ extra) = .ok (r.1, r.2 ++ extra) := by
    simp only [parse_arg_names, bind_eq_ok] at h
    obtain ⟨a, ha, first, hfirst, h⟩ := h
    simp only [parse_arg_names, consume_append extra ha, peek_append extra hfirst, ok_bind]
    cases first
    · simp only [Bool.false_eq_true, if_false, bind_eq_ok] at h
      obtain ⟨y, hy, c, hc, h⟩ := h
      simp only [Bool.false_eq_true, if_false]
      right
      simp [pure, Except.pure] at hy
      subst hy
      simp only [pure, Except.pure, ok_bind, consume_append extra hc]
      simp [pure, Except.pure] at h ⊢
      rw [← h]
      simp
    · simp only [if_true, bind_eq_ok] at h
      obtain ⟨y, hy, b, hb, c, hc, h⟩ := h
      simp only [if_true, push_front_value_append extra hy, ok_bind]
      refine bind_fuel_or (parse_arg_names_loop_extend _ _ _ _ extra _ hb) ?_
      right
      simp only [consume_append extra hc, ok_bind]
      simp [pure, Except.pure] at h ⊢
      rw [← h]
      simp
  rcases hor with hor | hor
  · exact absurd hor (parse_arg_names_ne_out_of_fuel _)
  · exact hor

/-- C13 (trailing tokens are ignored): when `parse` returns the definition `d`
on the tokens `ts`, leaving `rest` in the deque, it returns the same `d` on
`ts` followed by any tokens `extra`, which it leaves in the deque behind
`rest`. -/
theorem C13_trailing_tokens_ignored (ts extra rest : List Token) (d : DefNode)
    (h : parse ts = .ok (d, rest)) : parse (ts ++ extra) = .ok (d, rest ++ extra) := by
  have hor : parse (ts ++ extra) = .error .out_of_fuel
      ∨ parse (ts ++ extra) = .ok (d, rest ++ extra) := by
    simp only [parse, parse_def, bind_eq_ok] at h
    obtain ⟨a, ha, b, hb, c, hc, e, he, h⟩ := h
    simp only [parse, parse_def, consume_append extra ha, consume_append extra hb,
      parse_arg_names_extend extra hc, ok_bind]
    refine bind_fuel_or ((parse_extend _).1 _ _ extra _ he) ?_
    right
    simp [pure, Except.pure] at h ⊢
    rw [← h.1, ← h.2]
    simp
  rcases hor with hor | hor
  · exact absurd hor (parse_ne_out_of_fuel _)
  · exact hor

/-- The tokens of `def g() 5` followed by an `END` token and a stray `)`:
`parse` returns the definition of `def g() 5` and leaves the two tokens. -/
theorem C13_trailing_tokens_ignored_witness :
    parse ([⟨Token.DEF, "def".toList⟩, ⟨Token.IDENTIFIER, "g".toList⟩,
        ⟨Token.OPAREN, "(".toList⟩, ⟨Token.CPAREN, ")".toList⟩, ⟨Token.INTEGER, "5".toList⟩]
        ++ [⟨Token.END, "end".toList⟩, ⟨Token.CPAREN, ")".toList⟩])
      = .ok (⟨"g".toList, [], .IntNode "5".toList⟩,
          [] ++ [⟨Token.END, "end".toList⟩, ⟨Token.CPAREN, ")".toList⟩]) :=
  C13_trailing_tokens_ignored _ _ [] ⟨"g".toList, [], .IntNode "5".toList⟩ rfl

/-! ## The texts of the tokens -/

theorem isDigit_false_of_isLetter {c : Char} (h : isLetter c = true) : isDigit c = false := by
  simp only [isLetter, isDigit, Bool.or_eq_true, Bool.and_eq_true, decide_eq_true_eq,
    Bool.and_eq_false_imp, decide_eq_false_iff_not, Char.le_def, UInt32.le_def,
    BitVec.le_def] at h ⊢
  have h1 : ('a' : Char).val.toBitVec.toNat = 97 := rfl
  have h2 : ('z' : Char).val.toBitVec.toNat = 122 := rfl
  have h3 : ('A' : Char).val.toBitVec.toNat = 65 := rfl
  have h4 : ('Z' : Char).val.toBitVec.toNat = 90 := rfl
  have h5 : ('0' : Char).val.toBitVec.toNat = 48 := rfl
  have h6 : ('9' : Char).val.toBitVec.toNat = 57 := rfl
  rw [h1, h2, h3, h4] at h
  rw [h5, h6]
  omega

theorem matchKeyword_some {kw code result : Str} (h : matchKeyword kw code = some result) :
    result = kw := by
  unfold matchKeyword at h
  split at h
  · simpa using h.symm
  · simp at h

/-- What `[cls]*\b` takes is a run of characters of the class, with a word
boundary at its end. -/
theorem matchClassRest_some (cls : Char → Bool) : ∀ (cs : Str) (left : Char) (n : Nat),
    matchClassRest cls left cs = some n →
    ∃ taken rest, cs = taken ++ rest ∧ taken.length = n ∧ (∀ c ∈ taken, cls c = true)
      ∧ wordBoundary (left :: taken).getLast? rest.head? = true := by
  intro cs
  induction cs with
  | nil =>
    intro left n h
    simp only [matchClassRest] at h
    split at h
    · rename_i hb
      simp at h
      exact ⟨[], [], rfl, h, by simp, by simpa using hb⟩
    · simp at h
  | cons c cs ih =>
    intro left n h
    simp only [matchClassRest] at h
    split at h
    · rename_i m hm
      simp at h
      by_cases hc : cls c = true
      · simp only [hc, if_true] at hm
        obtain ⟨taken, rest, hcs, hlen, hall, hb⟩ := ih c m hm
        refine ⟨c :: taken, rest, by simp [hcs], by simp [hlen, h], ?_, ?_⟩
        · intro d hd
          rcases List.mem_cons.mp hd with rfl | hd
          · exact hc
          · exact hall d hd
        · simpa [List.getLast?_cons_cons] using hb
      · simp [hc] at hm
    · split at h
      · rename_i hb
        simp at h
        exact ⟨[], c :: cs, rfl, h, by simp, by simpa using hb⟩
      · simp at h

/-- What `^(\b[cls]+\b)` matches is a non-empty run of characters of the class
at the start of the string, with a word boundary at its end. -/
theorem matchClass_some (cls : Char → Bool) (code result : Str)
    (h : matchClass cls code = some result) :
    result ≠ [] ∧ (∀ c ∈ result, cls c = true)
      ∧ ∃ rest, code = result ++ rest ∧ wordBoundary result.getLast? rest.head? = true := by
  cases code with
  | nil => simp [matchClass] at h
  | cons c cs =>
    simp only [matchClass] at h
    split at h
    · rename_i hc
      simp only [Bool.and_eq_true] at hc
      simp only [Option.map_eq_some'] at h
      obtain ⟨n, hn, hres⟩ := h
      obtain ⟨taken, rest, hcs, hlen, hall, hb⟩ := matchClassRest_some cls cs c n hn
      have hr : result = c :: taken := by
        rw [← hres, hcs, ← hlen]
        simp
      subst hr
      refine ⟨by simp, ?_, rest, by simp [hcs], hb⟩
      intro d hd
      rcases List.mem_cons.mp hd with rfl | hd
      · exact hc.2
      · exact hall d hd
    · simp at h

/-- A match of the identifier rule on a string on which the keyword rule of
`kw` found nothing is not `kw`. -/
theorem matchClass_ne_keyword (k1 k2 k3 : Char) (hk1 : isWordChar k1 = true) (code result : Str)
    (hkw : matchKeyword [k1, k2, k3] code = none)
    (h : matchClass isLetter code = some result) : result ≠ [k1, k2, k3] := by
  rintro rfl
  obtain ⟨_, _, rest, hcode, hb⟩ := matchClass_some isLetter code _ h
  subst hcode
  simp [matchKeyword, List.isPrefixOf, wordBoundary, isWordAt, hk1] at hkw
  simp [wordBoundary, isWordAt] at hb
  cases rest with
  | nil => simp [isWordAt] at hkw hb; simp [hb] at hkw
  | cons r rest => simp [isWordAt] at hkw hb; simp [hb] at hkw

/-- The token of one step of the tokenizer has a text that its kind allows. -/
theorem tokenize_one_text_ok (code : Str) (r : Token × Str)
    (h : tokenize_one code = .ok r) : token_text_ok r.1 = true := by
  simp only [tokenize_one, N, tokenize_one_from] at h
  cases h0 : regex_search code 0 with
  | some result =>
    simp only [h0] at h
    simp at h
    rw [← h]
    simp [regex_search] at h0
    rw [matchKeyword_some h0]
    rfl
  | none =>
  simp only [h0] at h
  cases h1 : regex_search code 1 with
  | some result =>
    simp only [h1] at h
    simp at h
    rw [← h]
    simp [regex_search] at h1
    rw [matchKeyword_some h1]
    rfl
  | none =>
  simp only [h1] at h
  cases h2 : regex_search code 2 with
  | some result =>
    simp only [h2] at h
    simp at h
    rw [← h]
    simp only [regex_search] at h0 h1 h2
    rw [def_chars] at h0
    rw [end_chars] at h1
    obtain ⟨hne, hall, _⟩ := matchClass_some isLetter code result h2
    have hd := matchClass_ne_keyword 'd' 'e' 'f' (by decide) code result h0 h2
    have he := matchClass_ne_keyword 'e' 'n' 'd' (by decide) code result h1 h2
    simp [token_text_ok, def_chars, end_chars, hne, hd, he]
    exact hall
  | none =>
  simp only [h2] at h
  cases h3 : regex_search code 3 with
  | some result =>
    simp only [h3] at h
    simp at h
    rw [← h]
    simp only [regex_search] at h3
    obtain ⟨hne, hall, _⟩ := matchClass_some isDigit code result h3
    simp [token_text_ok, hne]
    exact hall
  | none =>
  simp only [h3] at h
  cases h4 : regex_search code 4 with
  | some result =>
    simp only [h4] at h
    simp at h
    rw [← h]
    simp only [regex_search, matchAtStart] at h4
    split at h4
    · simp at h4; rw [← h4]; rfl
    · simp at h4
  | none =>
  simp only [h4] at h
  cases h5 : regex_search code 5 with
  | some result =>
    simp only [h5] at h
    simp at h
    rw [← h]
    simp only [regex_search, matchAtStart] at h5
    split at h5
    · simp at h5; rw [← h5]; rfl
    · simp at h5
  | none =>
  simp only [h5] at h
  cases h6 : regex_search code 6 with
  | some result =>
    simp only [h6] at h
    simp at h
    rw [← h]
    simp only [regex_search, matchAnywhere] at h6
    split at h6
    · simp at h6; rw [← h6]; rfl
    · simp at h6
  | none =>
  simp only [h6] at h
  simp at h

theorem tokenize_loop_invariant (P : Token → Prop)
    (hone : ∀ code r, tokenize_one code = .ok r → P r.1) (fuel : Nat) :
    ∀ (code : Str) (tokens result : List Token), (∀ t ∈ tokens, P t) →
    tokenize_loop fuel code tokens = .ok result → ∀ t ∈ result, P t := by
  induction fuel with
  | zero =>
    intro code tokens result hacc h
    unfold tokenize_loop at h
    split at h
    · simp at h; subst h; exact hacc
    · simp at h
  | succ fuel ih =>
    intro code tokens result hacc h
    unfold tokenize_loop at h
    split at h
    · simp at h; subst h; exact hacc
    · split at h
      · rename_i token code' h1
        refine ih code' _ result ?_ h
        intro t ht
        rcases List.mem_append.mp ht with ht | ht
        · exact hacc t ht
        · simp at ht
          rw [ht]
          exact hone code (token, code') h1
      · simp at h

/-- A text that its kind allows does not mix letters and digits. -/
theorem not_mixed_of_text_ok (token : Token) (h : token_text_ok token = true) :
    mixes_letters_and_digits token.value = false := by
  unfold token_text_ok at h
  unfold mixes_letters_and_digits
  split at h
  · simp at h; rw [h]; decide
  · split at h
    · simp at h; rw [h]; decide
    · split at h
      · simp only [Bool.and_eq_true, List.all_eq_true] at h
        have hall := h.1.1.2
        simp only [Bool.and_eq_false_imp, List.any_eq_true, List.any_eq_false]
        intro _ c hc
        simp [isDigit_false_of_isLetter (hall c hc)]
      · split at h
        · simp only [Bool.and_eq_true, List.all_eq_true] at h
          have hall := h.2
          have hno : token.value.any isLetter = false := by
            simp only [List.any_eq_false]
            intro c hc hl
            have := isDigit_false_of_isLetter hl
            rw [hall c hc] at this
            exact absurd this (by simp)
          simp [hno]
        · split at h
          · simp at h; rw [h]; decide
          · split at h
            · simp at h; rw [h]; decide
            · split at h
              · simp at h; rw [h]; decide
              · simp at h

/-- C16 (token texts): every token that `tokenize` returns has a text that its
kind allows (`def`, `end`, a non-empty word of letters other than `def` and
`end`, a non-empty word of digits, `(`, `)`, `,`), and no text has both a letter
and a digit. -/
theorem C16_token_texts (code : Str) (tokens : List Token) (h : tokenize code = .ok tokens) :
    ∀ token ∈ tokens,
      token_text_ok token = true ∧ mixes_letters_and_digits token.value = false := by
  intro token htoken
  have hok : token_text_ok token = true :=
    tokenize_loop_invariant (fun t => token_text_ok t = true) tokenize_one_text_ok
      code.length code [] tokens (by simp) h token htoken
  exact ⟨hok, not_mixed_of_text_ok token hok⟩

/-- The token `12` that `tokenize` returns on `def f(x, 12)` has a text that
its kind allows, without a letter. -/
theorem C16_token_texts_witness :
    tokenize "def f(x, 12)".toList
      = .ok [⟨Token.DEF, "def".toList⟩, ⟨Token.IDENTIFIER, "f".toList⟩,
          ⟨Token.OPAREN, "(".toList⟩, ⟨Token.IDENTIFIER, "x".toList⟩,
          ⟨Token.COMMA, ",".toList⟩, ⟨Token.INTEGER, "12".toList⟩,
          ⟨Token.CPAREN, ")".toList⟩]
    ∧ (token_text_ok ⟨Token.INTEGER, "12".toList⟩ = true
      ∧ mixes_letters_and_digits "12".toList = false) :=
  ⟨rfl, C16_token_texts "def f(x, 12)".toList _ rfl ⟨Token.INTEGER, "12".toList⟩ (by simp)⟩

/-! ## Tokenizing the texts of tokens separated by spaces -/

theorem matchKeyword_head_ne (k c : Char) (ks rest : Str) (h : c ≠ k) :
    matchKeyword (k :: ks) (c :: rest) = none := by
  have : (k == c) = false := by simpa using fun hk => h hk.symm
  simp [matchKeyword, List.isPrefixOf, this]

/-- On a word of letters followed by nothing or by a character that is not a
word character, a keyword rule matches exactly the keyword itself. -/
theorem matchKeyword_word (k1 k2 k3 : Char) (hk1 : isWordChar k1 = true)
    (hk2 : isWordChar k2 = true) (hk3 : isWordChar k3 = true) (w suffix : Str)
    (hne : w ≠ []) (hw : ∀ c ∈ w, isLetter c = true) (hs : isWordAt suffix.head? = false) :
    matchKeyword [k1, k2, k3] (w ++ suffix)
      = if w = [k1, k2, k3] then some [k1, k2, k3] else none := by
  have hsfx : ∀ k : Char, isWordChar k = true → ∀ s rest, suffix = s :: rest → (k == s) = false := by
    intro k hk s rest hsr
    rw [hsr] at hs
    simp only [List.head?_cons, isWordAt] at hs
    by_contra hc
    simp at hc
    rw [hc, hs] at hk
    exact absurd hk (by simp)
  rcases w with _ | ⟨a, _ | ⟨b, _ | ⟨c, _ | ⟨d, rest⟩⟩⟩⟩
  · exact absurd rfl hne
  · rcases suffix with _ | ⟨s, suffix⟩
    · simp [matchKeyword, List.isPrefixOf]
    · simp [matchKeyword, List.isPrefixOf, hsfx k2 hk2 s suffix rfl]
  · rcases suffix with _ | ⟨s, suffix⟩
    · simp [matchKeyword, List.isPrefixOf]
    · simp [matchKeyword, List.isPrefixOf, hsfx k3 hk3 s suffix rfl]
  · by_cases h : a = k1 ∧ b = k2 ∧ c = k3
    · obtain ⟨rfl, rfl, rfl⟩ := h
      rcases suffix with _ | ⟨s, suffix⟩
      · simp [matchKeyword, List.isPrefixOf, wordBoundary, isWordAt, hk1, hk3]
      · simp only [List.head?_cons, isWordAt] at hs
        simp [matchKeyword, List.isPrefixOf, wordBoundary, isWordAt, hk1, hk3, hs]
    · have : ¬ ([a, b, c] = [k1, k2, k3]) := by simpa using h
      simp only [this, if_false]
      simp [matchKeyword, List.isPrefixOf]
      intro h1 h2 h3
      exact absurd ⟨h1.symm, h2.symm, h3.symm⟩ h
  · have hd : isWordChar d = true := isWordChar_of_isLetter (hw d (by simp))
    simp [matchKeyword, List.isPrefixOf, wordBoundary, isWordAt, hk1, hk3, hd]

/-- On a run of characters of a class of word characters followed by nothing or
by a character that is not a word character, `[cls]*\b` takes the whole run. -/
theorem matchClassRest_run (cls : Char → Bool) (hcls : ∀ c, cls c = true → isWordChar c = true)
    (suffix : Str) (hs : isWordAt suffix.head? = false) (cs : Str) (left : Char)
    (hleft : cls left = true) (hcs : ∀ c ∈ cs, cls c = true) :
    matchClassRest cls left (cs ++ suffix) = some cs.length := by
  induction cs generalizing left with
  | nil =>
    rcases suffix with _ | ⟨s, suffix⟩
    · simp [matchClassRest, wordBoundary, isWordAt, hcls left hleft]
    · simp only [List.head?_cons, isWordAt] at hs
      have hns : cls s = false := by
        by_contra hc
        simp at hc
        rw [hcls s hc] at hs
        exact absurd hs (by simp)
      simp [matchClassRest, wordBoundary, isWordAt, hcls left hleft, hs, hns]
  | cons c cs ih =>
    have hc : cls c = true := hcs c (List.mem_cons_self _ _)
    have := ih c hc (fun d hd => hcs d (List.mem_cons_of_mem _ hd))
    simp [matchClassRest, hc, this]

theorem matchClass_run (cls : Char → Bool) (hcls : ∀ c, cls c = true → isWordChar c = true)
    (w suffix : Str) (hne : w ≠ []) (hw : ∀ c ∈ w, cls c = true)
    (hs : isWordAt suffix.head? = false) :
    matchClass cls (w ++ suffix) = some w := by
  cases w with
  | nil => exact absurd rfl hne
  | cons c cs =>
    have hc : cls c = true := hw c (List.mem_cons_self _ _)
    have h := matchClassRest_run cls hcls suffix hs cs c hc
      (fun d hd => hw d (List.mem_cons_of_mem _ hd))
    simp [matchClass, wordBoundary, isWordAt, hcls c hc, hc, h]

theorem matchClass_head_not (cls : Char → Bool) (c : Char) (rest : Str)
    (h : cls c = false) : matchClass cls (c :: rest) = none := by
  simp [matchClass, h]

theorem isLetter_false_of_isDigit {c : Char} (h : isDigit c = true) : isLetter c = false := by
  by_contra hc
  simp at hc
  rw [isDigit_false_of_isLetter hc] at h
  exact absurd h (by simp)

/-- One step of the tokenizer on the text of a token followed by nothing or by
a character that is not a word character: the step returns that token and
leaves what follows, without its leading spaces. -/
theorem tokenize_one_token (token : Token) (suffix : Str) (ht : token_text_ok token = true)
    (hs : isWordAt suffix.head? = false) :
    tokenize_one (token.value ++ suffix) = .ok (token, trim suffix) := by
  obtain ⟨ty, v⟩ := token
  simp only [token_text_ok] at ht
  simp only [tokenize_one, N, tokenize_one_from, regex_search, def_chars, end_chars]
  split at ht
  · rename_i hty
    simp only [def_chars, beq_iff_eq] at ht
    subst ht
    subst hty
    rw [matchKeyword_word 'd' 'e' 'f' (by decide) (by decide) (by decide) _ suffix (by simp)
      (by decide) hs]
    simp
  · split at ht
    · rename_i hty
      simp only [end_chars, beq_iff_eq] at ht
      subst ht
      subst hty
      rw [matchKeyword_word 'd' 'e' 'f' (by decide) (by decide) (by decide) ['e', 'n', 'd']
        suffix (by simp) (by decide) hs]
      rw [matchKeyword_word 'e' 'n' 'd' (by decide) (by decide) (by decide) ['e', 'n', 'd']
        suffix (by simp) (by decide) hs]
      simp
    · split at ht
      · rename_i hty
        simp only [def_chars, end_chars, Bool.and_eq_true, List.all_eq_true, bne_iff_ne, ne_eq,
          Bool.not_eq_true', List.isEmpty_eq_false] at ht
        obtain ⟨⟨⟨hne, hall⟩, hd⟩, he⟩ := ht
        subst hty
        have hne2 : v ≠ [] := by
          intro hv
          rw [hv] at hne
          simp at hne
        rw [matchKeyword_word 'd' 'e' 'f' (by decide) (by decide) (by decide) v suffix hne2
          hall hs]
        rw [matchKeyword_word 'e' 'n' 'd' (by decide) (by decide) (by decide) v suffix hne2
          hall hs]
        rw [matchClass_run isLetter (fun c => isWordChar_of_isLetter) v suffix hne2 hall hs]
        simp [hd, he]
      · split at ht
        · rename_i hty
          simp only [Bool.and_eq_true, List.all_eq_true, Bool.not_eq_true',
            List.isEmpty_eq_false] at ht
          obtain ⟨hne, hall⟩ := ht
          subst hty
          have hne2 : v ≠ [] := by
            intro hv
            rw [hv] at hne
            simp at hne
          rw [matchClass_run isDigit (fun c => isWordChar_of_isDigit) v suffix hne2 hall hs]
          obtain ⟨c, cs, rfl⟩ := List.exists_cons_of_ne_nil hne2
          have hc : isDigit c = true := hall c (by simp)
          have hcd : c ≠ 'd' := by rintro rfl; exact absurd hc (by decide)
          have hce : c ≠ 'e' := by rintro rfl; exact absurd hc (by decide)
          simp only [List.cons_append]
          rw [matchKeyword_head_ne 'd' c _ _ hcd, matchKeyword_head_ne 'e' c _ _ hce,
            matchClass_head_not isLetter c _ (isLetter_false_of_isDigit hc)]
          simp
        · split at ht
          · rename_i hty
            simp only [beq_iff_eq] at ht
            subst ht
            subst hty
            have hv : "(".toList = ['('] := rfl
            simp only [hv, List.cons_append, List.nil_append]
            rw [matchKeyword_head_ne 'd' '(' _ _ (by decide),
              matchKeyword_head_ne 'e' '(' _ _ (by decide),
              matchClass_head_not isLetter '(' _ (by decide),
              matchClass_head_not isDigit '(' _ (by decide)]
            simp [matchAtStart]
          · split at ht
            · rename_i hty
              simp only [beq_iff_eq] at ht
              subst ht
              subst hty
              have hv : ")".toList = [')'] := rfl
              simp only [hv, List.cons_append, List.nil_append]
              rw [matchKeyword_head_ne 'd' ')' _ _ (by decide),
                matchKeyword_head_ne 'e' ')' _ _ (by decide),
                matchClass_head_not isLetter ')' _ (by decide),
                matchClass_head_not isDigit ')' _ (by decide)]
              simp [matchAtStart]
            · split at ht
              · rename_i hty
                simp only [beq_iff_eq] at ht
                subst ht
                subst hty
                have hv : ",".toList = [','] := rfl
                simp only [hv, List.cons_append, List.nil_append]
                rw [matchKeyword_head_ne 'd' ',' _ _ (by decide),
                  matchKeyword_head_ne 'e' ',' _ _ (by decide),
                  matchClass_head_not isLetter ',' _ (by decide),
                  matchClass_head_not isDigit ',' _ (by decide)]
                simp [matchAtStart, matchAnywhere]
              · simp at ht

/-- A text that its kind allows starts with a character that is not a space. -/
theorem text_ok_head (token : Token) (h : token_text_ok token = true) :
    ∃ c cs, token.value = c :: cs ∧ (c == ' ') = false := by
  unfold token_text_ok at h
  split at h
  · simp at h; exact ⟨'d', ['e', 'f'], by rw [h], by decide⟩
  · split at h
    · simp at h; exact ⟨'e', ['n', 'd'], by rw [h], by decide⟩
    · split at h
      · simp only [Bool.and_eq_true, List.all_eq_true, Bool.not_eq_true',
          List.isEmpty_eq_false] at h
        obtain ⟨⟨⟨hne, hall⟩, _⟩, _⟩ := h
        cases hv : token.value with
        | nil => rw [hv] at hne; simp at hne
        | cons c cs =>
          refine ⟨c, cs, rfl, ?_⟩
          have hc := hall c (by rw [hv]; simp)
          by_contra hsp
          simp at hsp
          rw [hsp] at hc
          exact absurd hc (by decide)
      · split at h
        · simp only [Bool.and_eq_true, List.all_eq_true, Bool.not_eq_true',
            List.isEmpty_eq_false] at h
          obtain ⟨hne, hall⟩ := h
          cases hv : token.value with
          | nil => rw [hv] at hne; simp at hne
          | cons c cs =>
            refine ⟨c, cs, rfl, ?_⟩
            have hc := hall c (by rw [hv]; simp)
            by_contra hsp
            simp at hsp
            rw [hsp] at hc
            exact absurd hc (by decide)
        · split at h
          · simp at h; exact ⟨'(', [], by rw [h], by decide⟩
          · split at h
            · simp at h; exact ⟨')', [], by rw [h], by decide⟩
            · split at h
              · simp at h; exact ⟨',', [], by rw [h], by decide⟩
              · simp at h

theorem written_eq (first : Token) (more : List (Nat × Token)) :
    ∃ rest, written first more = first.value ++ rest := by
  cases more with
  | nil => exact ⟨[], by simp [written]⟩
  | cons p more =>
    obtain ⟨gap, next⟩ := p
    exact ⟨_, rfl⟩

/-- The spaces in front of the text of a token are what `trim` erases. -/
theorem trim_spaces_written (n : Nat) (first : Token) (more : List (Nat × Token))
    (h : token_text_ok first = true) :
    trim (List.replicate n ' ' ++ written first more) = written first more := by
  obtain ⟨c, cs, hv, hc⟩ := text_ok_head first h
  obtain ⟨rest, hrest⟩ := written_eq first more
  rw [hrest, hv]
  induction n with
  | zero => simp [trim, List.dropWhile, hc]
  | succ n ih =>
    simp only [List.replicate_succ, List.cons_append]
    unfold trim at ih ⊢
    rw [List.dropWhile_cons]
    simpa using ih

/-- The loop of `tokenize` on the texts of tokens separated by spaces appends
exactly these tokens, unless the fuel is spent. -/
theorem tokenize_loop_written : ∀ (more : List (Nat × Token)) (first : Token)
    (tokens : List Token) (fuel : Nat), token_text_ok first = true →
    (∀ p ∈ more, token_text_ok p.2 = true) →
    tokenize_loop fuel (written first more) tokens = .error .out_of_fuel
      ∨ tokenize_loop fuel (written first more) tokens
          = .ok (tokens ++ first :: more.map Prod.snd) := by
  intro more
  induction more with
  | nil =>
    intro first tokens fuel h1 _
    obtain ⟨c, cs, hv, _⟩ := text_ok_head first h1
    have hlen : (written first []).length ≠ 0 := by simp [written, hv]
    cases fuel with
    | zero => left; simp [tokenize_loop, hlen]
    | succ fuel =>
      right
      have hone : tokenize_one (written first []) = .ok (first, []) := by
        have := tokenize_one_token first [] h1 (by simp [isWordAt])
        simpa [written, trim] using this
      simp only [tokenize_loop, hlen, if_false, hone]
      cases fuel <;> simp [tokenize_loop]
  | cons p more ih =>
    intro first tokens fuel h1 hmore
    obtain ⟨gap, next⟩ := p
    obtain ⟨c, cs, hv, _⟩ := text_ok_head first h1
    have hlen : (written first ((gap, next) :: more)).length ≠ 0 := by simp [written, hv]
    have hnext : token_text_ok next = true := hmore (gap, next) (by simp)
    cases fuel with
    | zero => left; simp [tokenize_loop, hlen]
    | succ fuel =>
      have hone : tokenize_one (written first ((gap, next) :: more))
          = .ok (first, written next more) := by
        have := tokenize_one_token first (List.replicate (gap + 1) ' ' ++ written next more) h1
          (by simp [List.replicate_succ, isWordAt]; decide)
        rw [trim_spaces_written (gap + 1) next more hnext] at this
        simpa [written] using this
      simp only [tokenize_loop, hlen, if_false, hone]
      have := ih next (tokens ++ [first]) fuel hnext
        (fun q hq => hmore q (List.mem_cons_of_mem _ hq))
      simpa using this

/-- C19 (lexer round trip): for every non-empty sequence of tokens whose texts
their kinds allow, `tokenize` on the texts written in order, each two
neighbours separated by one or more spaces, returns exactly that sequence; and
on the empty input it returns the empty sequence. -/
theorem C19_lexer_round_trip (first : Token) (more : List (Nat × Token))
    (h1 : token_text_ok first = true) (hmore : ∀ p ∈ more, token_text_ok p.2 = true) :
    tokenize (written first more) = .ok (first :: more.map Prod.snd)
    ∧ tokenize [] = .ok [] := by
  refine ⟨?_, rfl⟩
  rcases tokenize_loop_written more first [] (written first more).length h1 hmore with h | h
  · exact absurd h (tokenize_ne_out_of_fuel _)
  · simpa [tokenize] using h

/-- The text `def  foo ( 12 ,   end )`, with one to three spaces between its
seven tokens, tokenizes to these seven tokens. -/
theorem C19_lexer_round_trip_witness :
    tokenize (written ⟨Token.DEF, "def".toList⟩
        [(1, ⟨Token.IDENTIFIER, "foo".toList⟩), (0, ⟨Token.OPAREN, "(".toList⟩),
         (0, ⟨Token.INTEGER, "12".toList⟩), (0, ⟨Token.COMMA, ",".toList⟩),
         (2, ⟨Token.END, "end".toList⟩), (0, ⟨Token.CPAREN, ")".toList⟩)])
      = .ok (⟨Token.DEF, "def".toList⟩ ::
          [(1, (⟨Token.IDENTIFIER, "foo".toList⟩ : Token)), (0, ⟨Token.OPAREN, "(".toList⟩),
           (0, ⟨Token.INTEGER, "12".toList⟩), (0, ⟨Token.COMMA, ",".toList⟩),
           (2, ⟨Token.END, "end".toList⟩), (0, ⟨Token.CPAREN, ")".toList⟩)].map Prod.snd)
    ∧ tokenize [] = .ok [] :=
  C19_lexer_round_trip _ _ (by decide) (by decide)

/-! ## The parser on the grammar -/

theorem peek_nil (ty offset : Int) : peek [] ty offset = .error .out_of_range := by
  unfold peek
  split <;> rfl

theorem peek_cons_zero (t : Token) (ts : List Token) (ty : Int) :
    peek (t :: ts) ty 0 = .ok (t.type == ty) :=
  rfl

theorem peek_cons_one (t u : Token) (ts : List Token) (ty : Int) :
    peek (t :: u :: ts) ty 1 = .ok (u.type == ty) :=
  rfl

theorem peek_single_one (t : Token) (ty : Int) : peek [t] ty 1 = .error .out_of_range :=
  rfl

/-- An expression, or a sequence of them, starts with an `INTEGER` or an
`IDENTIFIER` token. -/
theorem phrase_head {l v : Bool} {ts : List Token} (h : Phrase l v ts) :
    ∃ t tl, ts = t :: tl ∧ (t.type = Token.INTEGER ∨ t.type = Token.IDENTIFIER) := by
  induction h with
  | integer t ht => exact ⟨t, [], rfl, Or.inl ht⟩
  | identifier t ht => exact ⟨t, [], rfl, Or.inr ht⟩
  | call_empty t o c ht _ _ => exact ⟨t, _, rfl, Or.inr ht⟩
  | call t o c args v ht _ _ _ _ => exact ⟨t, _, rfl, Or.inr ht⟩
  | one ts v _ ih => exact ih
  | more ts comma rest v w _ _ _ ih _ =>
    obtain ⟨t, tl, rfl, ht⟩ := ih
    exact ⟨t, _, rfl, ht⟩

theorem parse_expr_zero (ts : List Token) : parse_expr 0 ts = .error .out_of_fuel := by
  simp [parse_expr]

theorem parse_call_zero (ts : List Token) : parse_call 0 ts = .error .out_of_fuel := by
  simp [parse_call]

theorem parse_arg_exprs_zero (ts : List Token) :
    parse_arg_exprs 0 ts = .error .out_of_fuel := by
  simp [parse_arg_exprs]

theorem parse_arg_exprs_loop_zero (ts : List Token) (acc : List ExprNode) :
    parse_arg_exprs_loop 0 ts acc = .error .out_of_fuel := by
  simp [parse_arg_exprs_loop]

/-- The first steps of `parse_expr` on the start of a call, up to the items of
its argument list. -/
theorem parse_expr_call_start (f : Nat) (t o : Token) (ts : List Token)
    (ht : t.type = Token.IDENTIFIER) (ho : o.type = Token.OPAREN) :
    parse_expr (f + 3) (t :: o :: ts)
      = (do
          let closed ← peek ts Token.CPAREN 0
          let r ← (if (!closed) = true then
              (parse_expr f ts >>= fun p => parse_arg_exprs_loop f p.2 ([] ++ [p.1]))
            else pure ([], ts))
          let c ← consume r.2 Token.CPAREN
          pure (ExprNode.CallNode t.value r.1, c.2)) := by
  simp only [parse_expr, parse_call, parse_arg_exprs, peek_cons_zero, peek_call, peek_cons_one,
    consume_cons, ht, ho, ok_bind, if_true, beq_self_eq_true]
  have h23 : (Token.IDENTIFIER == Token.INTEGER) = false := by decide
  simp only [h23, Bool.false_eq_true, if_false, ok_bind, if_true]
  cases hp : peek ts Token.CPAREN 0 with
  | error e => rfl
  | ok closed =>
    simp only [ok_bind]
    cases closed
    · simp only [Bool.not_false, if_true]
      cases hx : parse_expr f ts with
      | error e => rfl
      | ok p =>
        simp only [ok_bind]
        cases hy : parse_arg_exprs_loop f p.2 ([] ++ [p.1]) with
        | error e => rfl
        | ok r =>
          simp only [ok_bind]
          cases hc : consume r.2 Token.CPAREN with
          | error e => rfl
          | ok c => rfl
    · simp only [Bool.not_true, Bool.false_eq_true, if_false, pure, Except.pure, ok_bind]
      cases hc : consume ts Token.CPAREN with
      | error e => rfl
      | ok c => rfl

theorem parse_expr_call_small (f : Nat) (hf : f < 3) (t o : Token) (ts : List Token)
    (ht : t.type = Token.IDENTIFIER) (ho : o.type = Token.OPAREN) :
    parse_expr f (t :: o :: ts) = .error .out_of_fuel := by
  have h23 : (Token.IDENTIFIER == Token.INTEGER) = false := by decide
  match f, hf with
  | 0, _ => exact parse_expr_zero _
  | 1, _ =>
    simp only [parse_expr, parse_call, peek_cons_zero, peek_call, peek_cons_one, ht, ho, ok_bind,
      if_true, beq_self_eq_true, h23, Bool.false_eq_true, if_false]
  | 2, _ =>
    simp only [parse_expr, parse_call, parse_arg_exprs, peek_cons_zero, peek_call, peek_cons_one,
      consume_cons, ht, ho, ok_bind, if_true, beq_self_eq_true, h23, Bool.false_eq_true,
      if_false, error_bind]

/-- On the tokens of an expression `parse_expr` returns a tree and leaves what
follows, unless the fuel is spent; on the tokens of `args` so does `parse_expr`
followed by the loop of `parse_arg_exprs`. A variable reference must be
followed by a token that is no `OPAREN`, and `args` by one that is no `COMMA`. -/
theorem phrase_parse {l v : Bool} {ts : List Token} (h : Phrase l v ts) :
    (l = false → ∀ (rest : List Token) (f : Nat),
        (v = true → ∃ x xs, rest = x :: xs ∧ x.type ≠ Token.OPAREN) →
        parse_expr f (ts ++ rest) = .error .out_of_fuel
          ∨ ∃ e, parse_expr f (ts ++ rest) = .ok (e, rest))
    ∧ (l = true → ∀ (x : Token) (xs : List Token) (f g : Nat) (acc : List ExprNode),
        x.type ≠ Token.COMMA → (v = true → x.type ≠ Token.OPAREN) →
        (parse_expr f (ts ++ x :: xs) >>= fun p => parse_arg_exprs_loop g p.2 (acc ++ [p.1]))
            = .error .out_of_fuel
          ∨ ∃ es, (parse_expr f (ts ++ x :: xs) >>= fun p =>
              parse_arg_exprs_loop g p.2 (acc ++ [p.1])) = .ok (es, x :: xs)) := by
  induction h with
  | integer t ht =>
    refine ⟨fun _ rest f _ => ?_, fun hl => by cases hl⟩
    cases f with
    | zero => left; exact parse_expr_zero _
    | succ f =>
      right
      refine ⟨.IntNode t.value, ?_⟩
      simp [parse_expr, peek_cons_zero, ht, ok_bind, parse_int, consume_cons, pure, Except.pure]
  | identifier t ht =>
    refine ⟨fun _ rest f hv => ?_, fun hl => by cases hl⟩
    obtain ⟨x, xs, rfl, hx⟩ := hv rfl
    cases f with
    | zero => left; exact parse_expr_zero _
    | succ f =>
      right
      refine ⟨.VarNode t.value, ?_⟩
      have h23 : (Token.IDENTIFIER == Token.INTEGER) = false := by decide
      have hxo : (x.type == Token.OPAREN) = false := by simpa using hx
      simp [parse_expr, peek_cons_zero, peek_call, peek_cons_one, ht, ok_bind, h23, hxo,
        parse_var_ref, consume_cons, pure, Except.pure]
  | call_empty t o c ht ho hc =>
    refine ⟨fun _ rest f _ => ?_, fun hl => by cases hl⟩
    by_cases hf : f < 3
    · left; exact parse_expr_call_small f hf t o _ ht ho
    · obtain ⟨f, rfl⟩ : ∃ k, f = k + 3 := ⟨f - 3, by omega⟩
      right
      refine ⟨.CallNode t.value [], ?_⟩
      simp only [List.cons_append, List.nil_append]
      rw [parse_expr_call_start f t o _ ht ho]
      simp [peek_cons_zero, hc, ok_bind, consume_cons, pure, Except.pure]
  | call t o c args v ht ho hc hargs ih =>
    refine ⟨fun _ rest f _ => ?_, fun hl => by cases hl⟩
    by_cases hf : f < 3
    · left; exact parse_expr_call_small f hf t o _ ht ho
    · obtain ⟨f, rfl⟩ : ∃ k, f = k + 3 := ⟨f - 3, by omega⟩
      obtain ⟨a, tl, hatl, ha⟩ := phrase_head hargs
      have hclosed : peek (args ++ c :: rest) Token.CPAREN 0 = .ok false := by
        rw [hatl]
        simp only [List.cons_append, peek_cons_zero]
        rcases ha with ha | ha <;> rw [ha] <;> rfl
      have hco : c.type ≠ Token.COMMA := by rw [hc]; decide
      have hcp : c.type ≠ Token.OPAREN := by rw [hc]; decide
      have hlist := ih.2 rfl c rest f f [] hco (fun _ => hcp)
      have hcode : t :: o :: (args ++ [c]) ++ rest = t :: o :: (args ++ c :: rest) := by simp
      rw [hcode, parse_expr_call_start f t o _ ht ho, hclosed]
      simp only [ok_bind, Bool.not_false, if_true]
      rcases hlist with hlist | ⟨es, hlist⟩
      · left; rw [hlist]; rfl
      · right
        refine ⟨.CallNode t.value es, ?_⟩
        rw [hlist]
        simp [ok_bind, consume_cons, hc, pure, Except.pure]
  | one ts v _ ih =>
    refine ⟨fun hl => (by cases hl), fun _ x xs f g acc hx hv => ?_⟩
    rcases ih.1 rfl (x :: xs) f (fun hvt => ⟨x, xs, rfl, hv hvt⟩) with h | ⟨e, h⟩
    · left; rw [h]; rfl
    · rw [h]
      simp only [ok_bind]
      cases g with
      | zero => left; exact parse_arg_exprs_loop_zero _ _
      | succ g =>
        right
        have hxc : (x.type == Token.COMMA) = false := by simpa using hx
        exact ⟨acc ++ [e], by
          simp [parse_arg_exprs_loop, peek_cons_zero, hxc, ok_bind, pure, Except.pure]⟩
  | more ts comma rest v w _ hcomma _ ih1 ih2 =>
    refine ⟨fun hl => (by cases hl), fun _ x xs f g acc hx hv => ?_⟩
    have hcode : ts ++ comma :: rest ++ x :: xs = ts ++ comma :: (rest ++ x :: xs) := by simp
    have hcp : comma.type ≠ Token.OPAREN := by rw [hcomma]; decide
    rw [hcode]
    rcases ih1.1 rfl (comma :: (rest ++ x :: xs)) f (fun _ => ⟨_, _, rfl, hcp⟩) with h | ⟨e, h⟩
    · left; rw [h]; rfl
    · rw [h]
      simp only [ok_bind]
      cases g with
      | zero => left; exact parse_arg_exprs_loop_zero _ _
      | succ g =>
        simp only [parse_arg_exprs_loop, peek_cons_zero, hcomma, beq_self_eq_true, ok_bind,
          if_true, consume_cons]
        exact ih2.2 rfl x xs g g (acc ++ [e]) hx hv

/-- An expression at the end of the stream: `parse_expr` returns its tree, or,
when it is a variable reference, throws `out_of_range` from the lookahead. -/
theorem phrase_end {v : Bool} {ts : List Token} (h : Phrase false v ts) (f : Nat) :
    parse_expr f ts = .error .out_of_fuel ∨ parse_expr f ts = .error .out_of_range
      ∨ ∃ e, parse_expr f ts = .ok (e, []) := by
  cases v with
  | false =>
    rcases (phrase_parse h).1 rfl [] f (fun hv => by cases hv) with h1 | ⟨e, h1⟩
    · left; simpa using h1
    · right; right; exact ⟨e, by simpa using h1⟩
  | true =>
    cases h with
    | identifier t ht =>
      cases f with
      | zero => left; exact parse_expr_zero _
      | succ f =>
        right; left
        have h23 : (Token.IDENTIFIER == Token.INTEGER) = false := by decide
        simp only [parse_expr, peek_cons_zero, peek_call, peek_single_one, ht, ok_bind, h23,
          Bool.false_eq_true, if_false, beq_self_eq_true, if_true, error_bind]

/-- The items of a list at the end of the stream: `parse_expr` and the loop of
`parse_arg_exprs` throw `out_of_range`, unless the fuel is spent. -/
theorem phrase_list_end {l v : Bool} {ts : List Token} (h : Phrase l v ts) :
    l = true → ∀ (f g : Nat) (acc : List ExprNode),
      (parse_expr f ts >>= fun p => parse_arg_exprs_loop g p.2 (acc ++ [p.1]))
          = .error .out_of_fuel
        ∨ (parse_expr f ts >>= fun p => parse_arg_exprs_loop g p.2 (acc ++ [p.1]))
          = .error .out_of_range := by
  induction h with
  | integer t ht => intro hl; cases hl
  | identifier t ht => intro hl; cases hl
  | call_empty t o c ht ho hc => intro hl; cases hl
  | call t o c args v ht ho hc hargs ih => intro hl; cases hl
  | one ts v h1 _ =>
    intro _ f g acc
    rcases phrase_end h1 f with h | h | ⟨e, h⟩
    · left; rw [h]; rfl
    · right; rw [h]; rfl
    · rw [h]
      simp only [ok_bind]
      cases g with
      | zero => left; exact parse_arg_exprs_loop_zero _ _
      | succ g => right; simp only [parse_arg_exprs_loop, peek_nil, error_bind]
  | more ts comma rest v w h1 hcomma _ _ ih2 =>
    intro _ f g acc
    have hcp : comma.type ≠ Token.OPAREN := by rw [hcomma]; decide
    rcases (phrase_parse h1).1 rfl (comma :: rest) f (fun _ => ⟨_, _, rfl, hcp⟩) with h | ⟨e, h⟩
    · left; rw [h]; rfl
    · rw [h]
      simp only [ok_bind]
      cases g with
      | zero => left; exact parse_arg_exprs_loop_zero _ _
      | succ g =>
        simp only [parse_arg_exprs_loop, peek_cons_zero, hcomma, beq_self_eq_true, ok_bind,
          if_true, consume_cons]
        exact ih2 rfl g g (acc ++ [e])

/-- The items of a list followed by a `COMMA` and by tokens on which
`parse_expr` fails: `parse_expr` and the loop of `parse_arg_exprs` fail with
one of these failures, or the fuel is spent. -/
theorem phrase_list_then {l v : Bool} {ts : List Token} (h : Phrase l v ts) (comma : Token)
    (inner : List Token) (hcomma : comma.type = Token.COMMA)
    (hinner : ∀ f, ∃ e, parse_expr f inner = .error e ∧ e ≠ .undefined) :
    l = true → ∀ (f g : Nat) (acc : List ExprNode),
      ∃ e, (parse_expr f (ts ++ comma :: inner) >>= fun p =>
          parse_arg_exprs_loop g p.2 (acc ++ [p.1])) = .error e ∧ e ≠ .undefined := by
  have hcp : comma.type ≠ Token.OPAREN := by rw [hcomma]; decide
  induction h with
  | integer t ht => intro hl; cases hl
  | identifier t ht => intro hl; cases hl
  | call_empty t o c ht ho hc => intro hl; cases hl
  | call t o c args v ht ho hc hargs ih => intro hl; cases hl
  | one ts v h1 _ =>
    intro _ f g acc
    rcases (phrase_parse h1).1 rfl (comma :: inner) f (fun _ => ⟨_, _, rfl, hcp⟩)
      with h | ⟨e, h⟩
    · exact ⟨_, by rw [h]; rfl, by simp⟩
    · rw [h]
      simp only [ok_bind]
      cases g with
      | zero => exact ⟨_, parse_arg_exprs_loop_zero _ _, by simp⟩
      | succ g =>
        obtain ⟨e', he', hne⟩ := hinner g
        refine ⟨e', ?_, hne⟩
        simp only [parse_arg_exprs_loop, peek_cons_zero, hcomma, beq_self_eq_true, ok_bind,
          if_true, consume_cons, he', error_bind]
  | more ts c2 rest v w h1 hc2 _ _ ih2 =>
    intro _ f g acc
    have hc2p : c2.type ≠ Token.OPAREN := by rw [hc2]; decide
    have hcode : ts ++ c2 :: rest ++ comma :: inner = ts ++ c2 :: (rest ++ comma :: inner) := by
      simp
    rw [hcode]
    rcases (phrase_parse h1).1 rfl (c2 :: (rest ++ comma :: inner)) f
      (fun _ => ⟨_, _, rfl, hc2p⟩) with h | ⟨e, h⟩
    · exact ⟨_, by rw [h]; rfl, by simp⟩
    · rw [h]
      simp only [ok_bind]
      cases g with
      | zero => exact ⟨_, parse_arg_exprs_loop_zero _ _, by simp⟩
      | succ g =>
        simp only [parse_arg_exprs_loop, peek_cons_zero, hc2, beq_self_eq_true, ok_bind,
          if_true, consume_cons]
        exact ih2 rfl g g (acc ++ [e])

theorem unclosed_head {ts : List Token} (h : Unclosed ts) :
    ∃ t tl, ts = t :: tl ∧ t.type = Token.IDENTIFIER := by
  cases h with
  | empty_list t o rest ht _ _ => exact ⟨t, _, rfl, ht⟩
  | list t o items rest v ht _ _ _ => exact ⟨t, _, rfl, ht⟩
  | first t o inner ht _ _ => exact ⟨t, _, rfl, ht⟩
  | later t o items v comma inner ht _ _ _ _ => exact ⟨t, _, rfl, ht⟩

/-- On the tokens of a call whose argument list is not closed `parse_expr`
fails, with a thrown exception or because the fuel is spent, and never by
undefined behaviour. -/
theorem unclosed_fails {ts : List Token} (h : Unclosed ts) :
    ∀ f, ∃ e, parse_expr f ts = .error e ∧ e ≠ .undefined := by
  induction h with
  | empty_list t o rest ht ho hrest =>
    intro f
    by_cases hf : f < 3
    · exact ⟨_, parse_expr_call_small f hf t o _ ht ho, by simp⟩
    · obtain ⟨f, rfl⟩ : ∃ k, f = k + 3 := ⟨f - 3, by omega⟩
      rw [parse_expr_call_start f t o _ ht ho]
      cases rest with
      | nil => exact ⟨.out_of_range, by simp only [peek_nil, error_bind], by simp⟩
      | cons x xs =>
        obtain ⟨_, hx2, hx3⟩ := hrest
        have hxc : (x.type == Token.CPAREN) = false := by simpa using hx2
        have hxi : (x.type == Token.INTEGER) = false := by
          simpa using fun hx => hx3 (by simp [hx])
        have hxd : (x.type == Token.IDENTIFIER) = false := by
          simpa using fun hx => hx3 (by simp [hx])
        simp only [peek_cons_zero, hxc, ok_bind, Bool.not_false, if_true]
        cases f with
        | zero => exact ⟨_, by rw [parse_expr_zero]; rfl, by simp⟩
        | succ f =>
          have hxne : ¬ x.type = Token.IDENTIFIER := by simpa using hxd
          refine ⟨.runtime_error x.type Token.IDENTIFIER, ?_, by simp⟩
          simp only [parse_expr, peek_cons_zero, peek_call, hxi, hxd, ok_bind,
            Bool.false_eq_true, if_false, pure, Except.pure, parse_var_ref, consume_cons, hxne,
            error_bind]
  | list t o items rest v ht ho hitems hrest =>
    intro f
    by_cases hf : f < 3
    · exact ⟨_, parse_expr_call_small f hf t o _ ht ho, by simp⟩
    · obtain ⟨f, rfl⟩ : ∃ k, f = k + 3 := ⟨f - 3, by omega⟩
      rw [parse_expr_call_start f t o _ ht ho]
      obtain ⟨a, tl, hatl, ha⟩ := phrase_head hitems
      have hclosed : peek (items ++ rest) Token.CPAREN 0 = .ok false := by
        rw [hatl]
        simp only [List.cons_append, peek_cons_zero]
        rcases ha with ha | ha <;> rw [ha] <;> rfl
      rw [hclosed]
      simp only [ok_bind, Bool.not_false, if_true]
      cases rest with
      | nil =>
        rw [List.append_nil]
        rcases phrase_list_end hitems rfl f f [] with h | h
        · exact ⟨_, by rw [h]; rfl, by simp⟩
        · exact ⟨_, by rw [h]; rfl, by simp⟩
      | cons x xs =>
        obtain ⟨hx1, hx2, hx3⟩ := hrest
        rcases (phrase_parse hitems).2 rfl x xs f f [] hx1 hx3 with h | ⟨es, h⟩
        · exact ⟨_, by rw [h]; rfl, by simp⟩
        · refine ⟨.runtime_error x.type Token.CPAREN, ?_, by simp⟩
          rw [h]
          simp only [ok_bind, consume_cons, hx2, if_false, error_bind]
  | first t o inner ht ho hinner ih =>
    intro f
    by_cases hf : f < 3
    · exact ⟨_, parse_expr_call_small f hf t o _ ht ho, by simp⟩
    · obtain ⟨f, rfl⟩ : ∃ k, f = k + 3 := ⟨f - 3, by omega⟩
      rw [parse_expr_call_start f t o _ ht ho]
      obtain ⟨a, tl, hatl, ha⟩ := unclosed_head hinner
      have hclosed : peek inner Token.CPAREN 0 = .ok false := by
        rw [hatl, peek_cons_zero, ha]
        rfl
      obtain ⟨e, he, hne⟩ := ih f
      refine ⟨e, ?_, hne⟩
      rw [hclosed]
      simp only [ok_bind, Bool.not_false, if_true, he, error_bind]
  | later t o items v comma inner ht ho hitems hcomma hinner ih =>
    intro f
    by_cases hf : f < 3
    · exact ⟨_, parse_expr_call_small f hf t o _ ht ho, by simp⟩
    · obtain ⟨f, rfl⟩ : ∃ k, f = k + 3 := ⟨f - 3, by omega⟩
      rw [parse_expr_call_start f t o _ ht ho]
      obtain ⟨a, tl, hatl, ha⟩ := phrase_head hitems
      have hclosed : peek (items ++ comma :: inner) Token.CPAREN 0 = .ok false := by
        rw [hatl]
        simp only [List.cons_append, peek_cons_zero]
        rcases ha with ha | ha <;> rw [ha] <;> rfl
      obtain ⟨e, he, hne⟩ := phrase_list_then hitems comma inner hcomma ih rfl f f []
      refine ⟨e, ?_, hne⟩
      rw [hclosed]
      simp only [ok_bind, Bool.not_false, if_true, he, error_bind]

theorem parse_arg_names_loop_zero (ts : List Token) (acc : List Str) :
    parse_arg_names_loop 0 ts acc = .error .out_of_fuel := by
  simp [parse_arg_names_loop]

/-- On the tokens of `params` followed by a token that is no `COMMA`, taking the
first parameter and running the loop of `parse_arg_names` returns and leaves
what follows, unless the fuel is spent. -/
theorem params_parse {ps : List Token} (h : Params ps) :
    ∀ (x : Token) (xs : List Token) (g : Nat) (acc : List Str), x.type ≠ Token.COMMA →
      (push_front_value (ps ++ x :: xs) acc >>= fun r => parse_arg_names_loop g r.2 r.1)
          = .error .out_of_fuel
        ∨ ∃ names, (push_front_value (ps ++ x :: xs) acc >>= fun r =>
            parse_arg_names_loop g r.2 r.1) = .ok (names, x :: xs) := by
  induction h with
  | one p hp =>
    intro x xs g acc hx
    have hxc : (x.type == Token.COMMA) = false := by simpa using hx
    simp only [List.cons_append, List.nil_append, push_front_value, ok_bind]
    cases g with
    | zero => left; exact parse_arg_names_loop_zero _ _
    | succ g =>
      right
      exact ⟨acc ++ [p.value], by
        simp [parse_arg_names_loop, peek_cons_zero, hxc, ok_bind, pure, Except.pure]⟩
  | more p comma rest hp hcomma _ ih =>
    intro x xs g acc hx
    simp only [List.cons_append, push_front_value, ok_bind]
    cases g with
    | zero => left; exact parse_arg_names_loop_zero _ _
    | succ g =>
      simp only [parse_arg_names_loop, peek_cons_zero, hcomma, beq_self_eq_true, ok_bind,
        if_true, consume_cons]
      exact ih x xs g (acc ++ [p.value]) hx

/-- On the tokens of `params` at the end of the stream, taking the first
parameter and running the loop of `parse_arg_names` throws `out_of_range`,
unless the fuel is spent. -/
theorem params_end {ps : List Token} (h : Params ps) :
    ∀ (g : Nat) (acc : List Str),
      (push_front_value ps acc >>= fun r => parse_arg_names_loop g r.2 r.1)
          = .error .out_of_fuel
        ∨ (push_front_value ps acc >>= fun r => parse_arg_names_loop g r.2 r.1)
          = .error .out_of_range := by
  induction h with
  | one p hp =>
    intro g acc
    simp only [push_front_value, ok_bind]
    cases g with
    | zero => left; exact parse_arg_names_loop_zero _ _
    | succ g => right; simp only [parse_arg_names_loop, peek_nil, error_bind]
  | more p comma rest hp hcomma _ ih =>
    intro g acc
    simp only [push_front_value, ok_bind]
    cases g with
    | zero => left; exact parse_arg_names_loop_zero _ _
    | succ g =>
      simp only [parse_arg_names_loop, peek_cons_zero, hcomma, beq_self_eq_true, ok_bind,
        if_true, consume_cons]
      exact ih g (acc ++ [p.value])

theorem params_head {ps : List Token} (h : Params ps) :
    ∃ p tl, ps = p :: tl ∧ p.type = Token.IDENTIFIER := by
  cases h with
  | one p hp => exact ⟨p, [], rfl, hp⟩
  | more p comma rest hp _ _ => exact ⟨p, _, rfl, hp⟩

/-- The first steps of `parse_arg_names` on an `OPAREN` followed by `params`. -/
theorem parse_arg_names_start (o : Token) (ps rest : List Token) (ho : o.type = Token.OPAREN)
    (h : Params ps) :
    parse_arg_names (o :: (ps ++ rest))
      = (do
          let r ← (push_front_value (ps ++ rest) [] >>= fun r =>
            parse_arg_names_loop (r.2.length + 1) r.2 r.1)
          let c ← consume r.2 Token.CPAREN
          pure (r.1, c.2)) := by
  obtain ⟨p, tl, rfl, hp⟩ := params_head h
  simp only [parse_arg_names, consume_cons, ho, if_true, ok_bind, List.cons_append,
    peek_cons_zero, hp, beq_self_eq_true, push_front_value]

/-- On a closed parameter list `parse_arg_names` returns and leaves what follows
the `CPAREN`. -/
theorem parse_arg_names_closed (o c : Token) (ps body : List Token)
    (ho : o.type = Token.OPAREN) (hc : c.type = Token.CPAREN) (h : Params ps) :
    ∃ names, parse_arg_names (o :: (ps ++ c :: body)) = .ok (names, body) := by
  have hne := parse_arg_names_ne_out_of_fuel (o :: (ps ++ c :: body))
  rw [parse_arg_names_start o ps _ ho h] at hne ⊢
  have hcc : c.type ≠ Token.COMMA := by rw [hc]; decide
  obtain ⟨p, tl, hptl, hp⟩ := params_head h
  have hpush : push_front_value (ps ++ c :: body) []
      = .ok ([] ++ [p.value], tl ++ c :: body) := by
    rw [hptl]; rfl
  rcases params_parse h c body ((tl ++ c :: body).length + 1) [] hcc with h1 | ⟨names, h1⟩
  · rw [hpush, ok_bind] at h1 hne
    simp only at h1 hne
    rw [h1] at hne
    exact absurd rfl hne
  · rw [hpush, ok_bind] at h1 ⊢
    simp only at h1 ⊢
    rw [h1]
    exact ⟨names, by simp [ok_bind, consume_cons, hc, pure, Except.pure]⟩

theorem is_thrown_of_ne {e : Err} (h1 : e ≠ .undefined) (h2 : e ≠ .out_of_fuel) :
    is_thrown e = true := by
  cases e <;> simp_all [is_thrown]

/-- The first steps of `parse` on a `DEF` and an `IDENTIFIER` token. -/
theorem parse_start (d n : Token) (ts : List Token) (hd : d.type = Token.DEF)
    (hn : n.type = Token.IDENTIFIER) :
    parse (d :: n :: ts)
      = (do
          let r ← parse_arg_names ts
          let b ← parse_expr (expr_fuel r.2) r.2
          pure (⟨n.value, r.1, b.1⟩, b.2)) := by
  simp only [parse, parse_def, consume_cons, hd, hn, if_true, ok_bind]

/-- When the parameter list is closed and `parse_expr` fails on the body,
`parse` fails with a thrown exception. -/
theorem parse_body_fails (d n : Token) (ts body : List Token) (names : List Str)
    (hd : d.type = Token.DEF) (hn : n.type = Token.IDENTIFIER)
    (hnames : parse_arg_names ts = .ok (names, body)) (hbody : Unclosed body) :
    ∃ e, parse (d :: n :: ts) = .error e ∧ is_thrown e = true := by
  obtain ⟨e, he, hne⟩ := unclosed_fails hbody (expr_fuel body)
  have hfuel : e ≠ .out_of_fuel := by
    rintro rfl
    exact (parse_fuel _).1 body (by unfold expr_fuel; omega) he
  refine ⟨e, ?_, is_thrown_of_ne hne hfuel⟩
  rw [parse_start d n ts hd hn, hnames]
  simp only [ok_bind, he, error_bind]

/-- C12 (a missing `CPAREN` is rejected): on every token stream in which the
parameter list, or the argument list of a call of the body, is not closed (the
stream ends behind the `OPAREN` and the items of the list, or the next token is
neither a `COMMA` nor a `CPAREN`), `parse` returns no definition and fails with
a thrown exception: the `runtime_error` of `consume` at a wrong token, the
`out_of_range` of `peek` at the end of the stream. -/
theorem C12_unclosed_list_rejected (tokens : List Token) (h : UnclosedDefinition tokens) :
    ∃ e, parse tokens = .error e ∧ is_thrown e = true := by
  cases h with
  | no_parameters d n o rest hd hn ho hrest =>
    rw [parse_start d n _ hd hn]
    cases rest with
    | nil =>
      exact ⟨.out_of_range, by
        simp only [parse_arg_names, consume_cons, ho, if_true, ok_bind, peek_nil, error_bind],
        rfl⟩
    | cons x xs =>
      obtain ⟨_, hx2, hx3⟩ := hrest
      have hxd : (x.type == Token.IDENTIFIER) = false := by
        simpa using fun hx => hx3 (by simp [hx])
      exact ⟨.runtime_error x.type Token.CPAREN, by
        simp only [parse_arg_names, consume_cons, ho, if_true, ok_bind, peek_cons_zero, hxd,
          Bool.false_eq_true, if_false, pure, Except.pure, hx2, error_bind], rfl⟩
  | parameters d n o ps rest hd hn ho hps hrest =>
    have hne := parse_arg_names_ne_out_of_fuel (o :: (ps ++ rest))
    rw [parse_start d n _ hd hn]
    rw [parse_arg_names_start o ps rest ho hps] at hne ⊢
    obtain ⟨p, tl, hptl, hp⟩ := params_head hps
    cases rest with
    | nil =>
      have hpush : push_front_value (ps ++ []) [] = .ok ([] ++ [p.value], tl) := by
        rw [hptl]; simp [push_front_value]
      have hend := params_end hps (tl.length + 1) []
      rw [List.append_nil] at hpush
      rw [List.append_nil, hpush, ok_bind] at hne ⊢
      rw [hpush, ok_bind] at hend
      simp only at hne hend ⊢
      rcases hend with hend | hend
      · rw [hend] at hne
        exact absurd rfl hne
      · rw [hend]
        exact ⟨.out_of_range, rfl, rfl⟩
    | cons x xs =>
      obtain ⟨hx1, hx2, _⟩ := hrest
      have hpush : push_front_value (ps ++ x :: xs) []
          = .ok ([] ++ [p.value], tl ++ x :: xs) := by
        rw [hptl]; rfl
      have hpar := params_parse hps x xs ((tl ++ x :: xs).length + 1) [] hx1
      rw [hpush, ok_bind] at hne hpar ⊢
      simp only at hne hpar ⊢
      rcases hpar with hpar | ⟨names, hpar⟩
      · rw [hpar] at hne
        exact absurd rfl hne
      · rw [hpar]
        exact ⟨.runtime_error x.type Token.CPAREN, by
          simp only [ok_bind, consume_cons, hx2, if_false, error_bind], rfl⟩
  | body_no_parameters d n o c body hd hn ho hc hbody =>
    refine parse_body_fails d n _ body [] hd hn ?_ hbody
    have hci : (c.type == Token.IDENTIFIER) = false := by rw [hc]; rfl
    simp [parse_arg_names, consume_cons, ho, hc, ok_bind, peek_cons_zero, hci, pure,
      Except.pure]
  | body d n o c ps body hd hn ho hps hc hbody =>
    obtain ⟨names, hnames⟩ := parse_arg_names_closed o c ps body ho hc hps
    exact parse_body_fails d n _ body names hd hn hnames hbody

/-- The tokens of `def f(x, y 2`, whose parameter list is followed by an
`INTEGER`, and of `def f(x) add(g(1, x`, which ends inside the argument list of
`g`, behind a variable reference: `parse` fails with a thrown exception on
both. -/
theorem C12_unclosed_list_rejected_witness :
    (∃ e, parse [⟨Token.DEF, "def".toList⟩, ⟨Token.IDENTIFIER, "f".toList⟩,
        ⟨Token.OPAREN, "(".toList⟩, ⟨Token.IDENTIFIER, "x".toList⟩, ⟨Token.COMMA, ",".toList⟩,
        ⟨Token.IDENTIFIER, "y".toList⟩, ⟨Token.INTEGER, "2".toList⟩] = .error e
      ∧ is_thrown e = true)
    ∧ (∃ e, parse [⟨Token.DEF, "def".toList⟩, ⟨Token.IDENTIFIER, "f".toList⟩,
        ⟨Token.OPAREN, "(".toList⟩, ⟨Token.IDENTIFIER, "x".toList⟩, ⟨Token.CPAREN, ")".toList⟩,
        ⟨Token.IDENTIFIER, "add".toList⟩, ⟨Token.OPAREN, "(".toList⟩,
        ⟨Token.IDENTIFIER, "g".toList⟩, ⟨Token.OPAREN, "(".toList⟩,
        ⟨Token.INTEGER, "1".toList⟩, ⟨Token.COMMA, ",".toList⟩,
        ⟨Token.IDENTIFIER, "x".toList⟩] = .error e
      ∧ is_thrown e = true) :=
  ⟨C12_unclosed_list_rejected _
      (UnclosedDefinition.parameters ⟨Token.DEF, "def".toList⟩ ⟨Token.IDENTIFIER, "f".toList⟩
        ⟨Token.OPAREN, "(".toList⟩
        [⟨Token.IDENTIFIER, "x".toList⟩, ⟨Token.COMMA, ",".toList⟩,
          ⟨Token.IDENTIFIER, "y".toList⟩]
        [⟨Token.INTEGER, "2".toList⟩] rfl rfl rfl
        (Params.more _ _ _ rfl rfl (Params.one _ rfl))
        ⟨by decide, by decide, by decide⟩),
   C12_unclosed_list_rejected _
      (UnclosedDefinition.body ⟨Token.DEF, "def".toList⟩ ⟨Token.IDENTIFIER, "f".toList⟩
        ⟨Token.OPAREN, "(".toList⟩ ⟨Token.CPAREN, ")".toList⟩
        [⟨Token.IDENTIFIER, "x".toList⟩]
        [⟨Token.IDENTIFIER, "add".toList⟩, ⟨Token.OPAREN, "(".toList⟩,
          ⟨Token.IDENTIFIER, "g".toList⟩, ⟨Token.OPAREN, "(".toList⟩,
          ⟨Token.INTEGER, "1".toList⟩, ⟨Token.COMMA, ",".toList⟩,
          ⟨Token.IDENTIFIER, "x".toList⟩]
        rfl rfl rfl (Params.one _ rfl) rfl
        (Unclosed.first ⟨Token.IDENTIFIER, "add".toList⟩ ⟨Token.OPAREN, "(".toList⟩ _ rfl rfl
          (Unclosed.list ⟨Token.IDENTIFIER, "g".toList⟩ ⟨Token.OPAREN, "(".toList⟩
            [⟨Token.INTEGER, "1".toList⟩, ⟨Token.COMMA, ",".toList⟩,
              ⟨Token.IDENTIFIER, "x".toList⟩] [] true rfl rfl
            (Phrase.more [⟨Token.INTEGER, "1".toList⟩] ⟨Token.COMMA, ",".toList⟩
              [⟨Token.IDENTIFIER, "x".toList⟩] false true (Phrase.integer _ rfl) rfl
              (Phrase.one _ _ (Phrase.identifier _ rfl)))
            trivial)))⟩

end MiniCompiler
